import Mathlib

/-!
Verification of the RGBmatrixPanel LED-matrix driver.

The development shallowly embeds the driver's data model and operations:
bytes are `Nat` values kept below 256, the framebuffer memory is a function
`Nat → Nat` from byte addresses to byte values (the two matrix buffers live
at the base addresses recorded in `matrixbuff`, mirroring the single
`malloc` block of `init`), and machine-integer wraparound is made explicit
with `% 256` where the source relies on `uint8_t` arithmetic.  GPIO pin
toggling has no observable effect on the driver state and is not modelled;
the counter/buffer bookkeeping of the interrupt handler is.
-/

set_option maxRecDepth 8192

namespace RGBmatrixPanel

/-- Number of bit planes; fixed constant `#define nPlanes 4` in the source. -/
def nPlanes : Nat := 4

/-- BCM interval table `static const uint16_t dur[4] = {50, 100, 200, 400}`
(Spark Core build, bit-banged GPIO). -/
def dur (i : Nat) : Nat := [50, 100, 200, 400].getD i 0

/-- BCM interval table `{30, 60, 120, 240}` used by the `FASTER` partial-port
Core build and the Photon (`STM32F2XX`) build. -/
def durFaster (i : Nat) : Nat := [30, 60, 120, 240].getD i 0

/-- State of one `RGBmatrixPanel` instance.  `width` is the `Adafruit_GFX`
`WIDTH` constant, `nRows` the number of multiplexed scan rows (panel height
is `2 * nRows`), `rotation` the `Adafruit_GFX` rotation setting (0–3).
`mem` is byte-addressed memory; `matrixbuff` holds the two buffer base
addresses (equal when the panel is not double-buffered, exactly as
`matrixbuff[1] = matrixbuff[0]` in `init`).  `backindex`, `swapflag`,
`row`, `plane` and `buffptr` are the volatile bookkeeping fields. -/
structure Panel where
  width : Nat
  nRows : Nat
  rotation : Nat
  mem : Nat → Nat
  matrixbuff : Fin 2 → Nat
  backindex : Fin 2
  swapflag : Bool
  row : Nat
  plane : Nat
  buffptr : Nat

/-- Write byte `v` at address `a`. -/
def set8 (m : Nat → Nat) (a v : Nat) : Nat → Nat :=
  fun i => if i = a then v else m i

/-- `m[a] |= v` (the `*ptr |= mask` idiom). -/
def orAt (m : Nat → Nat) (a v : Nat) : Nat → Nat :=
  set8 m a (m a ||| v)

/-- `m[a] &= v` (the `*ptr &= mask` idiom; the C complement masks such as
`~0B00011100` appear here as their 8-bit values, e.g. `0xE3`). -/
def andAt (m : Nat → Nat) (a v : Nat) : Nat → Nat :=
  set8 m a (m a &&& v)

/-- C `memset(dst, v, n)`: the value is truncated to an unsigned char by
the caller. -/
def memset8 (m : Nat → Nat) (dst v n : Nat) : Nat → Nat :=
  fun i => if dst ≤ i ∧ i < dst + n then v else m i

/-- C `memcpy(dst, src, n)` for non-overlapping regions. -/
def memcpy8 (m : Nat → Nat) (dst src n : Nat) : Nat → Nat :=
  fun i => if dst ≤ i ∧ i < dst + n then m (src + (i - dst)) else m i

/-- Rotation-adjusted drawing width `_width` maintained by
`Adafruit_GFX::setRotation` (swapped with the height for 90°/270°). -/
def gfxWidth (p : Panel) : Nat :=
  if p.rotation = 1 ∨ p.rotation = 3 then 2 * p.nRows else p.width

/-- Rotation-adjusted drawing height `_height` maintained by
`Adafruit_GFX::setRotation`. -/
def gfxHeight (p : Panel) : Nat :=
  if p.rotation = 1 ∨ p.rotation = 3 then p.width else 2 * p.nRows

/-- The `switch(rotation)` coordinate transform at the top of
`RGBmatrixPanel::drawPixel` (cases 1/2/3 use `swap(x, y)` and reflect with
`WIDTH-1` / `HEIGHT-1`; `HEIGHT = 2 * nRows`). -/
def rotateXY (p : Panel) (x y : Int) : Int × Int :=
  match p.rotation with
  | 1 => ((p.width : Int) - 1 - y, x)
  | 2 => ((p.width : Int) - 1 - x, (2 * p.nRows : Int) - 1 - y)
  | 3 => (y, (2 * p.nRows : Int) - 1 - x)
  | _ => (x, y)

/-- The `for(; bit < limit; bit <<= 1)` loop of `drawPixel`: for each plane
weight in `bits` (the loop visits 2, 4, 8), mask out the three channel bits
(`mclr`) at the current byte, set `mR`/`mG`/`mB` when the corresponding
channel bit is set, then advance the pointer by one `WIDTH` stride. -/
def bcmPlanes (w r g b mclr mR mG mB : Nat) : List Nat → Nat → (Nat → Nat) → (Nat → Nat)
  | [], _, m => m
  | bit :: bits, a, m =>
    let m := andAt m a mclr
    let m := if r &&& bit ≠ 0 then orAt m a mR else m
    let m := if g &&& bit ≠ 0 then orAt m a mG else m
    let m := if b &&& bit ≠ 0 then orAt m a mB else m
    bcmPlanes w r g b mclr mR mG mB bits (a + w) m

/-- Upper-half packing of `drawPixel` (`y < nRows`): plane 0 of R and G
lives in bits 0–1 of the byte two strides ahead, plane 0 of B in bit 0 of
the byte one stride ahead, and planes 1–3 occupy bits 2/3/4 of the three
`WIDTH`-strided bytes starting at `base`. -/
def packUpper (w base r g b : Nat) (m : Nat → Nat) : Nat → Nat :=
  let m := andAt m (base + w * 2) 0xFC
  let m := if r &&& 1 ≠ 0 then orAt m (base + w * 2) 0x01 else m
  let m := if g &&& 1 ≠ 0 then orAt m (base + w * 2) 0x02 else m
  let m := if b &&& 1 ≠ 0 then orAt m (base + w) 0x01 else andAt m (base + w) 0xFE
  bcmPlanes w r g b 0xE3 0x04 0x08 0x10 [2, 4, 8] base m

/-- Lower-half packing of `drawPixel` (`y >= nRows`): plane 0 of G and B in
bits 0–1 of the base byte, plane 0 of R in bit 1 of the byte one stride
ahead, planes 1–3 in bits 5/6/7 of the three strided bytes. -/
def packLower (w base r g b : Nat) (m : Nat → Nat) : Nat → Nat :=
  let m := andAt m base 0xFC
  let m := if r &&& 1 ≠ 0 then orAt m (base + w) 0x02 else andAt m (base + w) 0xFD
  let m := if g &&& 1 ≠ 0 then orAt m base 0x01 else m
  let m := if b &&& 1 ≠ 0 then orAt m base 0x02 else m
  bcmPlanes w r g b 0x1F 0x20 0x40 0x80 [2, 4, 8] base m

/-- Memory effect of `RGBmatrixPanel::drawPixel(x, y, c)`: bounds check
against the rotation-adjusted area, rotation transform, 5/6/5 → 4/4/4
truncation (`r = c >> 12`, `g = (c >> 7) & 0xF`, `b = (c >> 1) & 0xF`),
then the packed write into the back buffer. -/
def drawPixelMem (p : Panel) (x y : Int) (c : Nat) : Nat → Nat :=
  if x < 0 ∨ x ≥ (gfxWidth p : Int) ∨ y < 0 ∨ y ≥ (gfxHeight p : Int) then p.mem
  else
    let xy := rotateXY p x y
    let r := c >>> 12
    let g := (c >>> 7) &&& 0xF
    let b := (c >>> 1) &&& 0xF
    let xn := xy.1.toNat
    let yn := xy.2.toNat
    if yn < p.nRows then
      packUpper p.width (p.matrixbuff p.backindex + yn * p.width * (nPlanes - 1) + xn) r g b p.mem
    else
      packLower p.width (p.matrixbuff p.backindex + (yn - p.nRows) * p.width * (nPlanes - 1) + xn) r g b p.mem

/-- `RGBmatrixPanel::drawPixel` (it only mutates the back buffer). -/
def drawPixel (p : Panel) (x y : Int) (c : Nat) : Panel :=
  { p with mem := drawPixelMem p x y c }

/-- `RGBmatrixPanel::fillScreen`: black or white is a single `memset` of the
back buffer; any other color falls back to the per-pixel path
(`Adafruit_GFX::fillScreen`, modelled below as `pixelFill`). -/
def pixelFillList (p : Panel) (c : Nat) (l : List (Nat × Nat)) : Panel :=
  l.foldl (fun q xy => drawPixel q (xy.1 : Int) (xy.2 : Int) c) p

/-- All visible coordinates `(x, y)` in row-major order. -/
def allPixels (w h : Nat) : List (Nat × Nat) :=
  (List.range h).flatMap fun y => (List.range w).map fun x => (x, y)

/-- Filling every visible pixel individually with `drawPixel` (the behavior
of the excluded `Adafruit_GFX::fillScreen` fallback, and the comparison
point for the fast-fill equivalence property). -/
def pixelFill (p : Panel) (c : Nat) : Panel :=
  pixelFillList p c (allPixels (gfxWidth p) (gfxHeight p))

/-- `RGBmatrixPanel::fillScreen(c)`. -/
def fillScreen (p : Panel) (c : Nat) : Panel :=
  if c = 0x0000 ∨ c = 0xFFFF then
    { p with mem := memset8 p.mem (p.matrixbuff p.backindex) (c % 256) (p.width * p.nRows * 3) }
  else
    pixelFill p c

/-- Counter/buffer bookkeeping of `RGBmatrixPanel::updateDisplay` (one timer
interrupt): read the next interval from `dur[plane]`, advance `plane` with
`uint8_t` wraparound, on plane wraparound advance `row`, on row wraparound
honor a pending swap and reset `buffptr` to the front buffer; planes 1–3
advance `buffptr` by one `WIDTH` stride after shifting out their data.
Returns the new state together with the programmed interval. -/
def updateDisplay (p : Panel) : Panel × Nat :=
  let duration := dur p.plane
  let q : Panel :=
    if (p.plane + 1) % 256 ≥ nPlanes then
      if (p.row + 1) % 256 ≥ p.nRows then
        let bi := if p.swapflag then 1 - p.backindex else p.backindex
        let sf := if p.swapflag then false else p.swapflag
        { p with plane := 0, row := 0, backindex := bi, swapflag := sf,
                 buffptr := p.matrixbuff (1 - bi) }
      else
        { p with plane := 0, row := (p.row + 1) % 256 }
    else
      { p with plane := (p.plane + 1) % 256 }
  let q := if q.plane > 0 then { q with buffptr := q.buffptr + q.width } else q
  (q, duration)

/-- The `while(swapflag == true) delay(1);` wait in `swapBuffers`: only the
interrupt handler runs until it clears the flag (bounded here by explicit
fuel; one frame of ticks always suffices). -/
def awaitSwapClear : Nat → Panel → Panel
  | 0, p => p
  | n + 1, p => if p.swapflag then awaitSwapClear n (updateDisplay p).1 else p

/-- `RGBmatrixPanel::swapBuffers(copy)`: only acts when the two buffer
pointers differ (double-buffered); sets the pending-swap flag, waits for
the interrupt handler to clear it, then optionally copies the new front
buffer into the new back buffer. -/
def swapBuffers (p : Panel) (copy : Bool) (fuel : Nat) : Panel :=
  if p.matrixbuff 0 ≠ p.matrixbuff 1 then
    let q := awaitSwapClear fuel { p with swapflag := true }
    if copy then
      { q with mem := memcpy8 q.mem (q.matrixbuff q.backindex)
                        (q.matrixbuff (1 - q.backindex)) (q.width * q.nRows * 3) }
    else q
  else p

/-- Actions of the two execution contexts on the shared state: a timer tick
(the interrupt handler) or the application requesting a swap (the
`swapflag = true` store in `swapBuffers`, a no-op when not
double-buffered). -/
inductive PanelEvent where
  | tick : PanelEvent
  | requestSwap : PanelEvent

/-- One event applied to the panel state. -/
def applyEvent (p : Panel) : PanelEvent → Panel
  | .tick => (updateDisplay p).1
  | .requestSwap => if p.matrixbuff 0 ≠ p.matrixbuff 1 then { p with swapflag := true } else p

/-- A whole trace of events. -/
def runEvents (p : Panel) : List PanelEvent → Panel
  | [] => p
  | e :: es => runEvents (applyEvent p e) es

/-- A concrete 32x32 double-buffered panel state used to witness theorems:
buffers at addresses 0 and 1536, zeroed memory, scheduler at the last
(row, plane) slot as set by `init`. -/
def panel32 : Panel :=
  { width := 32, nRows := 16, rotation := 0, mem := fun _ => 0,
    matrixbuff := ![0, 1536], backindex := 0, swapflag := false,
    row := 15, plane := 3, buffptr := 1536 }

/-- A single-buffered variant (both buffer pointers equal, as `init` sets
them when `dbuf` is false). -/
def panel32single : Panel :=
  { panel32 with matrixbuff := ![0, 0], buffptr := 0 }

/-! ### Initialization and begin(): the allocation-failure path -/

/-- Externally observable effects of `init`/`begin`.  `matrixbuff0` is the
`matrixbuff[0]` pointer (`none` models `NULL`), `stateInitialized` records
whether the post-allocation field setup of `init` ran, `errorReported`
records whether any error value reached the caller (`init` returns `void`
and writes no error indicator anywhere, so nothing in the model ever sets
it), and `timerArmed` records whether `begin` started the refresh timer. -/
structure InitEffects where
  matrixbuff0 : Option Nat
  stateInitialized : Bool
  errorReported : Bool
  timerArmed : Bool
deriving DecidableEq

/-- Effects before the constructor runs. -/
def initialEffects : InitEffects :=
  { matrixbuff0 := none, stateInitialized := false, errorReported := false,
    timerArmed := false }

/-- `RGBmatrixPanel::init`, abstracted over the `malloc` result: on `NULL`
it returns early (`if(NULL == (matrixbuff[0] = malloc(allocsize))) return;`)
leaving everything else untouched and reporting nothing; on success it
completes the field setup. -/
def initEffects (allocResult : Option Nat) (fx : InitEffects) : InitEffects :=
  match allocResult with
  | none => { fx with matrixbuff0 := none }
  | some base => { fx with matrixbuff0 := some base, stateInitialized := true }

/-- `RGBmatrixPanel::begin`: unconditionally registers the active panel and
arms the refresh timer (`refreshTimer.begin(refreshISR, 200, uSec)`); it
performs no check of `matrixbuff[0]` or of any error state. -/
def beginEffects (fx : InitEffects) : InitEffects :=
  { fx with timerArmed := true }

/-! ### Per-byte view of the packed write

Each byte of the framebuffer is only ever updated by read-modify-write
masking, so the write of one pixel acts on each byte as a function of that
byte's old value alone.  The six functions below are the per-byte residues
of `packUpper`/`packLower` (one per stride offset 0/1/2 and half), proved
equal to the packed write pointwise in `packUpper_apply`/`packLower_apply`
below. -/

/-- Upper half, stride-0 byte: the weight-2 loop pass (mask `~0B00011100`,
set bits 2/3/4). -/
def upperByte0 (r g b old : Nat) : Nat :=
  let v := old &&& 0xE3
  let v := if r &&& 2 ≠ 0 then v ||| 0x04 else v
  let v := if g &&& 2 ≠ 0 then v ||| 0x08 else v
  if b &&& 2 ≠ 0 then v ||| 0x10 else v

/-- Upper half, stride-1 byte: plane-0 B in bit 0, then the weight-4 loop
pass in bits 2/3/4. -/
def upperByte1 (r g b old : Nat) : Nat :=
  let v := if b &&& 1 ≠ 0 then old ||| 0x01 else old &&& 0xFE
  let v := v &&& 0xE3
  let v := if r &&& 4 ≠ 0 then v ||| 0x04 else v
  let v := if g &&& 4 ≠ 0 then v ||| 0x08 else v
  if b &&& 4 ≠ 0 then v ||| 0x10 else v

/-- Upper half, stride-2 byte: plane-0 R and G in bits 0/1, then the
weight-8 loop pass in bits 2/3/4. -/
def upperByte2 (r g b old : Nat) : Nat :=
  let v := old &&& 0xFC
  let v := if r &&& 1 ≠ 0 then v ||| 0x01 else v
  let v := if g &&& 1 ≠ 0 then v ||| 0x02 else v
  let v := v &&& 0xE3
  let v := if r &&& 8 ≠ 0 then v ||| 0x04 else v
  let v := if g &&& 8 ≠ 0 then v ||| 0x08 else v
  if b &&& 8 ≠ 0 then v ||| 0x10 else v

/-- Lower half, stride-0 byte: plane-0 G and B in bits 0/1, then the
weight-2 loop pass in bits 5/6/7. -/
def lowerByte0 (r g b old : Nat) : Nat :=
  let v := old &&& 0xFC
  let v := if g &&& 1 ≠ 0 then v ||| 0x01 else v
  let v := if b &&& 1 ≠ 0 then v ||| 0x02 else v
  let v := v &&& 0x1F
  let v := if r &&& 2 ≠ 0 then v ||| 0x20 else v
  let v := if g &&& 2 ≠ 0 then v ||| 0x40 else v
  if b &&& 2 ≠ 0 then v ||| 0x80 else v

/-- Lower half, stride-1 byte: plane-0 R in bit 1, then the weight-4 loop
pass in bits 5/6/7. -/
def lowerByte1 (r g b old : Nat) : Nat :=
  let v := if r &&& 1 ≠ 0 then old ||| 0x02 else old &&& 0xFD
  let v := v &&& 0x1F
  let v := if r &&& 4 ≠ 0 then v ||| 0x20 else v
  let v := if g &&& 4 ≠ 0 then v ||| 0x40 else v
  if b &&& 4 ≠ 0 then v ||| 0x80 else v

/-- Lower half, stride-2 byte: the weight-8 loop pass in bits 5/6/7. -/
def lowerByte2 (r g b old : Nat) : Nat :=
  let v := old &&& 0x1F
  let v := if r &&& 8 ≠ 0 then v ||| 0x20 else v
  let v := if g &&& 8 ≠ 0 then v ||| 0x40 else v
  if b &&& 8 ≠ 0 then v ||| 0x80 else v

/-- Action of a rotation-0 in-range `drawPixel(x, y, c)` on the single byte
at address `j`, as a function of that byte's old value. -/
def byteAct (w nR B0 x y c j old : Nat) : Nat :=
  let r := c >>> 12
  let g := (c >>> 7) &&& 0xF
  let b := (c >>> 1) &&& 0xF
  if y < nR then
    let base := B0 + y * w * 3 + x
    if j = base then upperByte0 r g b old
    else if j = base + w then upperByte1 r g b old
    else if j = base + w * 2 then upperByte2 r g b old
    else old
  else
    let base := B0 + (y - nR) * w * 3 + x
    if j = base then lowerByte0 r g b old
    else if j = base + w then lowerByte1 r g b old
    else if j = base + w * 2 then lowerByte2 r g b old
    else old

/-- Bit `k` of the byte at address `a` (the unpacking idiom of
`updateDisplay`, e.g. `ptr[i] & 0x04`). -/
def planeBit (m : Nat → Nat) (a k : Nat) : Nat := (m a >>> k) &&& 1

/-- Read back the 4-bit channel triple of the pixel at raw coordinates
`(x, y)` by collecting its four packed plane bits per channel and
recombining them with weights 1/2/4/8 (inverse of the packing scheme of
`drawPixel`; the plane-0 spare-bit locations are the ones `updateDisplay`
reassembles). -/
def decodePixel (p : Panel) (x y : Nat) : Nat × Nat × Nat :=
  let w := p.width
  let m := p.mem
  if y < p.nRows then
    let base := p.matrixbuff p.backindex + y * w * 3 + x
    (planeBit m (base + w * 2) 0 + 2 * planeBit m base 2 +
       4 * planeBit m (base + w) 2 + 8 * planeBit m (base + w * 2) 2,
     planeBit m (base + w * 2) 1 + 2 * planeBit m base 3 +
       4 * planeBit m (base + w) 3 + 8 * planeBit m (base + w * 2) 3,
     planeBit m (base + w) 0 + 2 * planeBit m base 4 +
       4 * planeBit m (base + w) 4 + 8 * planeBit m (base + w * 2) 4)
  else
    let base := p.matrixbuff p.backindex + (y - p.nRows) * w * 3 + x
    (planeBit m (base + w) 1 + 2 * planeBit m base 5 +
       4 * planeBit m (base + w) 5 + 8 * planeBit m (base + w * 2) 5,
     planeBit m base 0 + 2 * planeBit m base 6 +
       4 * planeBit m (base + w) 6 + 8 * planeBit m (base + w * 2) 6,
     planeBit m base 1 + 2 * planeBit m base 7 +
       4 * planeBit m (base + w) 7 + 8 * planeBit m (base + w * 2) 7)

/-! ### Color codec: ColorHSV

The gamma table lives in the external header `gamma.h` (a fixed 256-entry
`uint8_t` table); `ColorHSV` is parameterized over it, so every theorem
below holds for any table. -/

/-- Hue normalization of `ColorHSV`: `hue %= 1536;` (C `%` truncates toward
zero, i.e. `Int.tmod`) followed by `if(hue < 0) hue += 1536;`. -/
def hsvNormHue (hue : Int) : Int :=
  let h := Int.tmod hue 1536
  if h < 0 then h + 1536 else h

/-- The six-sextant colorwheel `switch(hue >> 8)` of `ColorHSV`, producing
the fully saturated RGB triple from the normalized hue `h` and the
intra-sextant mix `lo = hue & 255`. -/
def hsvSextantRGB (h lo : Nat) : Nat × Nat × Nat :=
  match h >>> 8 with
  | 0 => (255, lo, 0)
  | 1 => (255 - lo, 255, 0)
  | 2 => (0, 255, lo)
  | 3 => (0, 255 - lo, 255)
  | 4 => (lo, 0, 255)
  | _ => (255, 0, 255 - lo)

/-- Saturation blend `255 - (((255 - ch) * s1) >> 8)` with `s1 = sat + 1`. -/
def satBlend (s1 ch : Nat) : Nat := 255 - (((255 - ch) * s1) >>> 8)

/-- Gamma-table index `(ch * v1) >> 8` with `v1 = val + 1`. -/
def valIdx (v1 ch : Nat) : Nat := (ch * v1) >>> 8

/-- `RGBmatrixPanel::ColorHSV(hue, sat, val, gflag)`, parameterized over the
gamma table `gam`; `% 256` models the `uint8_t` stores and `% 65536` the
`uint16_t` return. -/
def ColorHSV (gam : Nat → Nat) (hue : Int) (sat val : Nat) (gflag : Bool) : Nat :=
  let h := (hsvNormHue hue).toNat
  let lo := h &&& 255
  let rgb := hsvSextantRGB h lo
  let s1 := sat + 1
  let r := satBlend s1 rgb.1
  let g := satBlend s1 rgb.2.1
  let b := satBlend s1 rgb.2.2
  let v1 := val + 1
  let r := if gflag then gam (valIdx v1 r) % 256 else (r * v1) >>> 12
  let g := if gflag then gam (valIdx v1 g) % 256 else (g * v1) >>> 12
  let b := if gflag then gam (valIdx v1 b) % 256 else (b * v1) >>> 12
  ((r <<< 12) ||| ((r &&& 0x8) <<< 8) |||
   (g <<< 7) ||| ((g &&& 0xC) <<< 3) |||
   (b <<< 1) ||| (b >>> 3)) % 65536

/-! ### Claim theorems -/

/-- Normalized hue agrees with the mathematical (euclidean) remainder and
lands in `[0, 1535]` for every input, negative inputs included. -/
theorem hsvNormHue_spec (hue : Int) :
    hsvNormHue hue = hue % 1536 ∧ 0 ≤ hsvNormHue hue ∧ hsvNormHue hue < 1536 := by
  unfold hsvNormHue
  cases hue with
  | ofNat n =>
    rw [show Int.tmod (Int.ofNat n) 1536 = Int.ofNat (n % 1536) from rfl]
    simp only [Int.ofNat_eq_coe]
    split_ifs <;> omega
  | negSucc m =>
    rw [show Int.tmod (Int.negSucc m) 1536 = -Int.ofNat ((m + 1) % 1536) from rfl,
      Int.negSucc_eq]
    simp only [Int.ofNat_eq_coe]
    split_ifs <;> omega

/-- Characterization of one tick: either the buffer selector and the
pending-swap flag are untouched, or the row counter was reset to 0 with the
pending swap honored and cleared. -/
theorem updateDisplay_cases (p : Panel) :
    ((updateDisplay p).1.backindex = p.backindex ∧ (updateDisplay p).1.swapflag = p.swapflag) ∨
      ((updateDisplay p).1.row = 0 ∧ (updateDisplay p).1.swapflag = false ∧
        (updateDisplay p).1.backindex = 1 - p.backindex ∧ p.swapflag = true) := by
  unfold updateDisplay
  dsimp only
  split_ifs <;> simp_all

/-- Claim C1: along any event trace (timer ticks interleaved with
application swap requests), the back-buffer selector `backindex` changes
value only on a tick whose row counter ends at 0 (a whole-frame boundary),
and the pending-swap flag is only ever cleared at that same boundary. -/
theorem swap_only_at_frame_boundary (p0 : Panel) (evs : List PanelEvent) (e : PanelEvent)
    (hchange : (applyEvent (runEvents p0 evs) e).backindex ≠ (runEvents p0 evs).backindex ∨
      ((runEvents p0 evs).swapflag = true ∧ (applyEvent (runEvents p0 evs) e).swapflag = false)) :
    (applyEvent (runEvents p0 evs) e).row = 0 ∧ (applyEvent (runEvents p0 evs) e).swapflag = false := by
  generalize runEvents p0 evs = p at hchange ⊢
  cases e with
  | requestSwap =>
    unfold applyEvent at hchange ⊢
    split_ifs at hchange ⊢ <;> simp_all
  | tick =>
    have h := updateDisplay_cases p
    unfold applyEvent at hchange ⊢
    rcases h with ⟨h1, h2⟩ | ⟨h1, h2, h3, h4⟩
    · rw [h1, h2] at hchange
      rcases hchange with h | ⟨ha, hb⟩
      · exact absurd rfl h
      · rw [ha] at hb; exact absurd hb (by simp)
    · exact ⟨h1, h2⟩

/-- Witness for C1 at a concrete state: the tick that ends a frame with a
pending swap really does change `backindex`, and the theorem applies. -/
theorem swap_only_at_frame_boundary_witness :
    (applyEvent (runEvents { panel32 with swapflag := true } []) .tick).backindex ≠
      (runEvents { panel32 with swapflag := true } []).backindex ∧
      (applyEvent (runEvents { panel32 with swapflag := true } []) .tick).row = 0 ∧
      (applyEvent (runEvents { panel32 with swapflag := true } []) .tick).swapflag = false :=
  ⟨by decide, swap_only_at_frame_boundary _ [] .tick (Or.inl (by decide))⟩

/-- Claim C5: coordinates outside the rotation-adjusted visible area make
`drawPixel` a silent no-op — the whole panel state (hence every byte of
both framebuffers) is unchanged and no error is reported (the function
returns nothing but the unchanged state). -/
theorem drawPixel_out_of_range_noop (p : Panel) (x y : Int) (c : Nat)
    (h : x < 0 ∨ x ≥ (gfxWidth p : Int) ∨ y < 0 ∨ y ≥ (gfxHeight p : Int)) :
    drawPixel p x y c = p := by
  unfold drawPixel drawPixelMem
  rw [if_pos h]

/-- Witness for C5 at a concrete out-of-range input. -/
theorem drawPixel_out_of_range_noop_witness :
    ((-1 : Int) < 0 ∨ (-1 : Int) ≥ (gfxWidth panel32 : Int) ∨ (0 : Int) < 0 ∨
      (0 : Int) ≥ (gfxHeight panel32 : Int)) ∧
      drawPixel panel32 (-1) 0 0xF800 = panel32 :=
  ⟨Or.inl (by decide), drawPixel_out_of_range_noop panel32 (-1) 0 0xF800 (Or.inl (by decide))⟩

/-- Claim C6: on a panel that is not double-buffered (both buffer pointers
equal, as `init` sets them), `swapBuffers` returns immediately with the
state unchanged — no flag set, no blocking, no buffer change — for either
value of `copy`. -/
theorem swapBuffers_single_buffer_noop (p : Panel) (h : p.matrixbuff 0 = p.matrixbuff 1)
    (copy : Bool) (fuel : Nat) : swapBuffers p copy fuel = p := by
  unfold swapBuffers
  rw [if_neg]
  simp [h]

/-- Witness for C6 on the concrete single-buffered panel. -/
theorem swapBuffers_single_buffer_noop_witness :
    panel32single.matrixbuff 0 = panel32single.matrixbuff 1 ∧
      swapBuffers panel32single true 100 = panel32single ∧
      swapBuffers panel32single false 100 = panel32single :=
  ⟨by decide, swapBuffers_single_buffer_noop panel32single (by decide) true 100,
    swapBuffers_single_buffer_noop panel32single (by decide) false 100⟩

/-- Claim C7: the interval programmed for plane `p` is `baseDuration << p`
(the base interval left-shifted by the plane index), for both interval
tables shipped in the source, so each bit-plane is displayed twice as long
as the previous one. -/
theorem updateDisplay_duration_doubles (p : Panel) (h : p.plane < nPlanes) :
    (updateDisplay p).2 = dur 0 <<< p.plane ∧ ∀ i, i < 4 → durFaster i = durFaster 0 <<< i := by
  refine ⟨?_, by decide⟩
  have h4 : p.plane < 4 := h
  have hdur : (updateDisplay p).2 = dur p.plane := rfl
  rw [hdur]
  revert h4
  generalize p.plane = k
  intro h4
  interval_cases k <;> rfl

/-- Witness for C7 at plane 2 of the concrete panel. -/
theorem updateDisplay_duration_doubles_witness :
    ({ panel32 with plane := 2 } : Panel).plane < nPlanes ∧
      (updateDisplay { panel32 with plane := 2 }).2 = dur 0 <<< 2 :=
  ⟨by decide, (updateDisplay_duration_doubles { panel32 with plane := 2 } (by decide)).1⟩

/-- Counterexample to claim C4: with a failed allocation, `init` reports no
error to the caller (it returns `void` and sets no error indicator), and a
subsequent `begin()` still arms the refresh interrupt — contradicting the
claim that an `AllocationError` is surfaced and that the panel cannot
proceed to `begin()`. -/
theorem init_allocFail_counterexample :
    (initEffects none initialEffects).errorReported = false ∧
      (beginEffects (initEffects none initialEffects)).timerArmed = true :=
  ⟨rfl, rfl⟩

/-- Amended claim C4: when the framebuffer allocation fails, `init` returns
early leaving `matrixbuff[0]` NULL and the rest of the panel state
uninitialized; no error is surfaced to the caller, and `begin()`, if
called, still arms the refresh interrupt. -/
theorem init_allocFail_behavior :
    (initEffects none initialEffects).matrixbuff0 = none ∧
      (initEffects none initialEffects).stateInitialized = false ∧
      (initEffects none initialEffects).errorReported = false ∧
      (beginEffects (initEffects none initialEffects)).timerArmed = true :=
  ⟨rfl, rfl, rfl, rfl⟩

/-- Claim C8: `ColorHSV` normalizes the hue modulo 1536 into `[0, 1535]`
(non-negative even for negative inputs), and in particular `ColorHSV(-1,
255, 255, g)` equals `ColorHSV(1535, 255, 255, g)` for either gamma flag
and any gamma table. -/
theorem colorHSV_hue_wraparound (gam : Nat → Nat) (gflag : Bool) (hue : Int) :
    ColorHSV gam (-1) 255 255 gflag = ColorHSV gam 1535 255 255 gflag ∧
      hsvNormHue hue = hue % 1536 ∧ 0 ≤ hsvNormHue hue ∧ hsvNormHue hue < 1536 := by
  refine ⟨?_, hsvNormHue_spec hue⟩
  have he : hsvNormHue (-1) = hsvNormHue 1535 := by decide
  unfold ColorHSV
  rw [he]

/-- Claim C10: `ColorHSV` is total and index-safe for all inputs — the
sextant selector of the normalized hue is in `[0, 5]` (so the six `switch`
cases cover it), the intra-sextant mix and the sextant RGB components stay
in `[0, 255]`, the saturation blend stays in `[0, 255]` (both the shifted
product and the final value), and every gamma-table index is below the
256-entry bound, so no table access is out of range and no input is
rejected. -/
theorem colorHSV_total_safe (hue : Int) (sat val : Nat) (hs : sat < 256) (hv : val < 256) :
    (hsvNormHue hue).toNat >>> 8 < 6 ∧
      (hsvNormHue hue).toNat &&& 255 ≤ 255 ∧
      (∀ ch, ch ≤ 255 → ((255 - ch) * (sat + 1)) >>> 8 ≤ 255 ∧ satBlend (sat + 1) ch ≤ 255) ∧
      (∀ h lo, lo ≤ 255 → (hsvSextantRGB h lo).1 ≤ 255 ∧ (hsvSextantRGB h lo).2.1 ≤ 255 ∧
        (hsvSextantRGB h lo).2.2 ≤ 255) ∧
      (∀ ch, ch ≤ 255 → valIdx (val + 1) ch < 256) := by
  obtain ⟨-, hn0, hn1⟩ := hsvNormHue_spec hue
  refine ⟨?_, Nat.and_le_right, ?_, ?_, ?_⟩
  · rw [Nat.shiftRight_eq_div_pow]
    omega
  · intro ch hch
    have hmul : (255 - ch) * (sat + 1) ≤ 255 * 256 :=
      Nat.mul_le_mul (by omega) (by omega)
    rw [Nat.shiftRight_eq_div_pow]
    refine ⟨by omega, ?_⟩
    exact Nat.sub_le _ _
  · intro h lo hlo
    unfold hsvSextantRGB
    rcases ht : h >>> 8 with - | - | - | - | - | n <;> simp only [] <;> omega
  · intro ch hch
    have hmul : ch * (val + 1) ≤ 255 * 256 :=
      Nat.mul_le_mul (by omega) (by omega)
    unfold valIdx
    rw [Nat.shiftRight_eq_div_pow]
    omega

/-- Witness for C10 at concrete inputs. -/
theorem colorHSV_total_safe_witness :
    (255 : Nat) < 256 ∧ (hsvNormHue (-1)).toNat >>> 8 < 6 :=
  ⟨by decide, (colorHSV_total_safe (-1) 255 255 (by decide) (by decide)).1⟩

/-! ### Pointwise evaluation of the packed writes -/

/-- Pointwise evaluation of `orAt`. -/
theorem orAt_eval (m : Nat → Nat) (a v j : Nat) :
    orAt m a v j = if j = a then m a ||| v else m j := rfl

/-- Pointwise evaluation of `andAt`. -/
theorem andAt_eval (m : Nat → Nat) (a v j : Nat) :
    andAt m a v j = if j = a then m a &&& v else m j := rfl

/-- `packUpper` acts on each byte independently: stride bytes 0/1/2 get
their per-byte residues, all other bytes are untouched. -/
theorem packUpper_apply (w base r g b : Nat) (m : Nat → Nat) (j : Nat) (hw : 0 < w) :
    packUpper w base r g b m j =
      if j = base then upperByte0 r g b (m j)
      else if j = base + w then upperByte1 r g b (m j)
      else if j = base + w * 2 then upperByte2 r g b (m j)
      else m j := by
  have e3 : base + w * 2 = base + w + w := by ring
  simp only [packUpper, bcmPlanes, ← e3]
  generalize hC : base + w * 2 = C
  generalize hB : base + w = B
  generalize hA : base = A at hB hC ⊢
  have hAB : A ≠ B := by omega
  have hAC : A ≠ C := by omega
  have hBC : B ≠ C := by omega
  by_cases hj0 : j = A
  · rw [hj0]
    simp [orAt_eval, andAt_eval, ite_apply, hAB, hAC, upperByte0]
  · by_cases hj1 : j = B
    · rw [hj1]
      simp [orAt_eval, andAt_eval, ite_apply, hBC, hAB.symm, hj0, upperByte1]
    · by_cases hj2 : j = C
      · rw [hj2]
        simp [orAt_eval, andAt_eval, ite_apply, hAC.symm, hBC.symm, upperByte2]
      · simp [orAt_eval, andAt_eval, ite_apply, hj0, hj1, hj2]

/-- `packLower` acts on each byte independently. -/
theorem packLower_apply (w base r g b : Nat) (m : Nat → Nat) (j : Nat) (hw : 0 < w) :
    packLower w base r g b m j =
      if j = base then lowerByte0 r g b (m j)
      else if j = base + w then lowerByte1 r g b (m j)
      else if j = base + w * 2 then lowerByte2 r g b (m j)
      else m j := by
  have e3 : base + w * 2 = base + w + w := by ring
  simp only [packLower, bcmPlanes, ← e3]
  generalize hC : base + w * 2 = C
  generalize hB : base + w = B
  generalize hA : base = A at hB hC ⊢
  have hAB : A ≠ B := by omega
  have hAC : A ≠ C := by omega
  have hBC : B ≠ C := by omega
  by_cases hj0 : j = A
  · rw [hj0]
    simp [orAt_eval, andAt_eval, ite_apply, hAB, hAC, lowerByte0]
  · by_cases hj1 : j = B
    · rw [hj1]
      simp [orAt_eval, andAt_eval, ite_apply, hBC, hAB.symm, hj0, lowerByte1]
    · by_cases hj2 : j = C
      · rw [hj2]
        simp [orAt_eval, andAt_eval, ite_apply, hAC.symm, hBC.symm, lowerByte2]
      · simp [orAt_eval, andAt_eval, ite_apply, hj0, hj1, hj2]

/-- Bit content of the upper stride-0 byte after a write: bits 2/3/4 carry
the weight-2 channel bits, all other bits are preserved. -/
theorem upperByte0_spec : ∀ old, old < 256 → ∀ r g b,
    upperByte0 r g b old < 256 ∧
    (upperByte0 r g b old >>> 0) &&& 1 = (old >>> 0) &&& 1 ∧
    (upperByte0 r g b old >>> 1) &&& 1 = (old >>> 1) &&& 1 ∧
    (upperByte0 r g b old >>> 2) &&& 1 = (if r &&& 2 ≠ 0 then 1 else 0) ∧
    (upperByte0 r g b old >>> 3) &&& 1 = (if g &&& 2 ≠ 0 then 1 else 0) ∧
    (upperByte0 r g b old >>> 4) &&& 1 = (if b &&& 2 ≠ 0 then 1 else 0) ∧
    (upperByte0 r g b old >>> 5) &&& 1 = (old >>> 5) &&& 1 ∧
    (upperByte0 r g b old >>> 6) &&& 1 = (old >>> 6) &&& 1 ∧
    (upperByte0 r g b old >>> 7) &&& 1 = (old >>> 7) &&& 1 := by
  intro old hold r g b
  unfold upperByte0
  split_ifs <;> revert old <;> decide

/-- Bit content of the upper stride-1 byte after a write: bit 0 is the
plane-0 B bit, bits 2/3/4 the weight-4 channel bits, the rest preserved. -/
theorem upperByte1_spec : ∀ old, old < 256 → ∀ r g b,
    upperByte1 r g b old < 256 ∧
    (upperByte1 r g b old >>> 0) &&& 1 = (if b &&& 1 ≠ 0 then 1 else 0) ∧
    (upperByte1 r g b old >>> 1) &&& 1 = (old >>> 1) &&& 1 ∧
    (upperByte1 r g b old >>> 2) &&& 1 = (if r &&& 4 ≠ 0 then 1 else 0) ∧
    (upperByte1 r g b old >>> 3) &&& 1 = (if g &&& 4 ≠ 0 then 1 else 0) ∧
    (upperByte1 r g b old >>> 4) &&& 1 = (if b &&& 4 ≠ 0 then 1 else 0) ∧
    (upperByte1 r g b old >>> 5) &&& 1 = (old >>> 5) &&& 1 ∧
    (upperByte1 r g b old >>> 6) &&& 1 = (old >>> 6) &&& 1 ∧
    (upperByte1 r g b old >>> 7) &&& 1 = (old >>> 7) &&& 1 := by
  intro old hold r g b
  unfold upperByte1
  split_ifs <;> revert old <;> decide

set_option maxHeartbeats 1000000 in
/-- Bit content of the upper stride-2 byte after a write: bits 0/1 are the
plane-0 R/G bits, bits 2/3/4 the weight-8 channel bits, bits 5–7
preserved. -/
theorem upperByte2_spec : ∀ old, old < 256 → ∀ r g b,
    upperByte2 r g b old < 256 ∧
    (upperByte2 r g b old >>> 0) &&& 1 = (if r &&& 1 ≠ 0 then 1 else 0) ∧
    (upperByte2 r g b old >>> 1) &&& 1 = (if g &&& 1 ≠ 0 then 1 else 0) ∧
    (upperByte2 r g b old >>> 2) &&& 1 = (if r &&& 8 ≠ 0 then 1 else 0) ∧
    (upperByte2 r g b old >>> 3) &&& 1 = (if g &&& 8 ≠ 0 then 1 else 0) ∧
    (upperByte2 r g b old >>> 4) &&& 1 = (if b &&& 8 ≠ 0 then 1 else 0) ∧
    (upperByte2 r g b old >>> 5) &&& 1 = (old >>> 5) &&& 1 ∧
    (upperByte2 r g b old >>> 6) &&& 1 = (old >>> 6) &&& 1 ∧
    (upperByte2 r g b old >>> 7) &&& 1 = (old >>> 7) &&& 1 := by
  intro old hold r g b
  unfold upperByte2
  split_ifs <;> revert old <;> decide

set_option maxHeartbeats 1000000 in
/-- Bit content of the lower stride-0 byte after a write: bits 0/1 are the
plane-0 G/B bits, bits 5/6/7 the weight-2 channel bits, bits 2–4
preserved. -/
theorem lowerByte0_spec : ∀ old, old < 256 → ∀ r g b,
    lowerByte0 r g b old < 256 ∧
    (lowerByte0 r g b old >>> 0) &&& 1 = (if g &&& 1 ≠ 0 then 1 else 0) ∧
    (lowerByte0 r g b old >>> 1) &&& 1 = (if b &&& 1 ≠ 0 then 1 else 0) ∧
    (lowerByte0 r g b old >>> 2) &&& 1 = (old >>> 2) &&& 1 ∧
    (lowerByte0 r g b old >>> 3) &&& 1 = (old >>> 3) &&& 1 ∧
    (lowerByte0 r g b old >>> 4) &&& 1 = (old >>> 4) &&& 1 ∧
    (lowerByte0 r g b old >>> 5) &&& 1 = (if r &&& 2 ≠ 0 then 1 else 0) ∧
    (lowerByte0 r g b old >>> 6) &&& 1 = (if g &&& 2 ≠ 0 then 1 else 0) ∧
    (lowerByte0 r g b old >>> 7) &&& 1 = (if b &&& 2 ≠ 0 then 1 else 0) := by
  intro old hold r g b
  unfold lowerByte0
  split_ifs <;> revert old <;> decide

/-- Bit content of the lower stride-1 byte after a write: bit 1 is the
plane-0 R bit, bits 5/6/7 the weight-4 channel bits, the rest preserved. -/
theorem lowerByte1_spec : ∀ old, old < 256 → ∀ r g b,
    lowerByte1 r g b old < 256 ∧
    (lowerByte1 r g b old >>> 0) &&& 1 = (old >>> 0) &&& 1 ∧
    (lowerByte1 r g b old >>> 1) &&& 1 = (if r &&& 1 ≠ 0 then 1 else 0) ∧
    (lowerByte1 r g b old >>> 2) &&& 1 = (old >>> 2) &&& 1 ∧
    (lowerByte1 r g b old >>> 3) &&& 1 = (old >>> 3) &&& 1 ∧
    (lowerByte1 r g b old >>> 4) &&& 1 = (old >>> 4) &&& 1 ∧
    (lowerByte1 r g b old >>> 5) &&& 1 = (if r &&& 4 ≠ 0 then 1 else 0) ∧
    (lowerByte1 r g b old >>> 6) &&& 1 = (if g &&& 4 ≠ 0 then 1 else 0) ∧
    (lowerByte1 r g b old >>> 7) &&& 1 = (if b &&& 4 ≠ 0 then 1 else 0) := by
  intro old hold r g b
  unfold lowerByte1
  split_ifs <;> revert old <;> decide

/-- Bit content of the lower stride-2 byte after a write: bits 5/6/7 carry
the weight-8 channel bits, bits 0–4 are preserved. -/
theorem lowerByte2_spec : ∀ old, old < 256 → ∀ r g b,
    lowerByte2 r g b old < 256 ∧
    (lowerByte2 r g b old >>> 0) &&& 1 = (old >>> 0) &&& 1 ∧
    (lowerByte2 r g b old >>> 1) &&& 1 = (old >>> 1) &&& 1 ∧
    (lowerByte2 r g b old >>> 2) &&& 1 = (old >>> 2) &&& 1 ∧
    (lowerByte2 r g b old >>> 3) &&& 1 = (old >>> 3) &&& 1 ∧
    (lowerByte2 r g b old >>> 4) &&& 1 = (old >>> 4) &&& 1 ∧
    (lowerByte2 r g b old >>> 5) &&& 1 = (if r &&& 8 ≠ 0 then 1 else 0) ∧
    (lowerByte2 r g b old >>> 6) &&& 1 = (if g &&& 8 ≠ 0 then 1 else 0) ∧
    (lowerByte2 r g b old >>> 7) &&& 1 = (if b &&& 8 ≠ 0 then 1 else 0) := by
  intro old hold r g b
  unfold lowerByte2
  split_ifs <;> revert old <;> decide

/-- A rotation-0 in-range `drawPixel` acts on each byte of memory through
`byteAct`. -/
theorem drawPixel_mem_apply (p : Panel) (x y c j : Nat)
    (hrot : p.rotation = 0) (hx : x < p.width) (hy : y < 2 * p.nRows) :
    (drawPixel p (x : Int) (y : Int) c).mem j =
      byteAct p.width p.nRows (p.matrixbuff p.backindex) x y c j (p.mem j) := by
  have hw : 0 < p.width := by omega
  have hgw : gfxWidth p = p.width := by simp [gfxWidth, hrot]
  have hgh : gfxHeight p = 2 * p.nRows := by simp [gfxHeight, hrot]
  have hguard : ¬((x : Int) < 0 ∨ (x : Int) ≥ (gfxWidth p : Int) ∨ (y : Int) < 0 ∨
      (y : Int) ≥ (gfxHeight p : Int)) := by
    rw [hgw, hgh]
    push_cast
    omega
  have hr : rotateXY p (x : Int) (y : Int) = ((x : Int), (y : Int)) := by
    unfold rotateXY
    rw [hrot]
  show drawPixelMem p (x : Int) (y : Int) c j = _
  unfold drawPixelMem
  rw [if_neg hguard]
  simp only [hr, Int.toNat_ofNat]
  by_cases hyr : y < p.nRows
  · rw [if_pos hyr, packUpper_apply _ _ _ _ _ _ _ hw]
    unfold byteAct
    rw [if_pos hyr]
    norm_num [nPlanes]
  · rw [if_neg hyr, packLower_apply _ _ _ _ _ _ _ hw]
    unfold byteAct
    rw [if_neg hyr]
    norm_num [nPlanes]

/-- Reassembling a 4-bit value from its bit indicators with weights
1/2/4/8. -/
theorem nibble_assemble : ∀ v, v < 16 →
    ((if v &&& 1 ≠ 0 then 1 else 0) + 2 * (if v &&& 2 ≠ 0 then 1 else 0) +
      4 * (if v &&& 4 ≠ 0 then 1 else 0) + 8 * (if v &&& 8 ≠ 0 then 1 else 0) : Nat) = v := by
  decide



/-- Round trip at raw (rotation-0) coordinates: writing the pixel and
reading back the four packed plane bits of each channel, recombined with
weights 1/2/4/8, yields exactly `(c>>12, (c>>7)&0xF, (c>>1)&0xF)`. -/
theorem drawPixel_roundTrip_raw (p : Panel) (x y c : Nat)
    (hrot : p.rotation = 0) (hx : x < p.width) (hy : y < 2 * p.nRows)
    (hc : c < 65536) (hwf : ∀ i, p.mem i < 256) :
    decodePixel (drawPixel p (x : Int) (y : Int) c) x y =
      (c >>> 12, (c >>> 7) &&& 0xF, (c >>> 1) &&& 0xF) := by
  have hw : 0 < p.width := by omega
  have hmem : ∀ j, drawPixelMem p (x : Int) (y : Int) c j =
      byteAct p.width p.nRows (p.matrixbuff p.backindex) x y c j (p.mem j) :=
    fun j => drawPixel_mem_apply p x y c j hrot hx hy
  have hr16 : c >>> 12 < 16 := by
    rw [Nat.shiftRight_eq_div_pow]
    omega
  have hg16 : (c >>> 7) &&& 0xF < 16 := by
    have h := Nat.and_le_right (n := c >>> 7) (m := 15)
    omega
  have hb16 : (c >>> 1) &&& 0xF < 16 := by
    have h := Nat.and_le_right (n := c >>> 1) (m := 15)
    omega
  unfold decodePixel planeBit
  simp only [drawPixel, hmem]
  by_cases hyr : y < p.nRows
  · rw [if_pos hyr]
    set r := c >>> 12 with hrdef
    set g := (c >>> 7) &&& 0xF with hgdef
    set b := (c >>> 1) &&& 0xF with hbdef
    set base := p.matrixbuff p.backindex + y * p.width * 3 + x with hbasedef
    have ne1 : base + p.width ≠ base := by omega
    have ne2 : base + p.width * 2 ≠ base := by omega
    have ne3 : base + p.width * 2 ≠ base + p.width := by omega
    have hA : byteAct p.width p.nRows (p.matrixbuff p.backindex) x y c base (p.mem base) =
        upperByte0 r g b (p.mem base) := by
      unfold byteAct
      rw [if_pos hyr, if_pos rfl]
    have hB : byteAct p.width p.nRows (p.matrixbuff p.backindex) x y c (base + p.width)
        (p.mem (base + p.width)) = upperByte1 r g b (p.mem (base + p.width)) := by
      unfold byteAct
      rw [if_pos hyr, if_neg ne1, if_pos rfl]
    have hC : byteAct p.width p.nRows (p.matrixbuff p.backindex) x y c (base + p.width * 2)
        (p.mem (base + p.width * 2)) = upperByte2 r g b (p.mem (base + p.width * 2)) := by
      unfold byteAct
      rw [if_pos hyr, if_neg ne2, if_neg ne3, if_pos rfl]
    rw [hA, hB, hC]
    obtain ⟨-, a0, a1, a2, a3, a4, a5, a6, a7⟩ :=
      upperByte0_spec (p.mem base) (hwf base) r g b
    obtain ⟨-, b0, b1, b2, b3, b4, b5, b6, b7⟩ :=
      upperByte1_spec (p.mem (base + p.width)) (hwf (base + p.width)) r g b
    obtain ⟨-, c0, c1, c2, c3, c4, c5, c6, c7⟩ :=
      upperByte2_spec (p.mem (base + p.width * 2)) (hwf (base + p.width * 2)) r g b
    rw [c0, c1, a2, a3, a4, b0, b2, b3, b4, c2, c3, c4]
    simp only [Prod.mk.injEq]
    exact ⟨nibble_assemble r hr16, nibble_assemble g hg16, nibble_assemble b hb16⟩
  · rw [if_neg hyr]
    set r := c >>> 12 with hrdef
    set g := (c >>> 7) &&& 0xF with hgdef
    set b := (c >>> 1) &&& 0xF with hbdef
    set base := p.matrixbuff p.backindex + (y - p.nRows) * p.width * 3 + x with hbasedef
    have ne1 : base + p.width ≠ base := by omega
    have ne2 : base + p.width * 2 ≠ base := by omega
    have ne3 : base + p.width * 2 ≠ base + p.width := by omega
    have hA : byteAct p.width p.nRows (p.matrixbuff p.backindex) x y c base (p.mem base) =
        lowerByte0 r g b (p.mem base) := by
      unfold byteAct
      rw [if_neg hyr, if_pos rfl]
    have hB : byteAct p.width p.nRows (p.matrixbuff p.backindex) x y c (base + p.width)
        (p.mem (base + p.width)) = lowerByte1 r g b (p.mem (base + p.width)) := by
      unfold byteAct
      rw [if_neg hyr, if_neg ne1, if_pos rfl]
    have hC : byteAct p.width p.nRows (p.matrixbuff p.backindex) x y c (base + p.width * 2)
        (p.mem (base + p.width * 2)) = lowerByte2 r g b (p.mem (base + p.width * 2)) := by
      unfold byteAct
      rw [if_neg hyr, if_neg ne2, if_neg ne3, if_pos rfl]
    rw [hA, hB, hC]
    obtain ⟨-, a0, a1, a2, a3, a4, a5, a6, a7⟩ :=
      lowerByte0_spec (p.mem base) (hwf base) r g b
    obtain ⟨-, b0, b1, b2, b3, b4, b5, b6, b7⟩ :=
      lowerByte1_spec (p.mem (base + p.width)) (hwf (base + p.width)) r g b
    obtain ⟨-, c0, c1, c2, c3, c4, c5, c6, c7⟩ :=
      lowerByte2_spec (p.mem (base + p.width * 2)) (hwf (base + p.width * 2)) r g b
    rw [b1, a5, b5, c5, a0, a6, b6, c6, a1, a7, b7, c7]
    simp only [Prod.mk.injEq]
    exact ⟨nibble_assemble r hr16, nibble_assemble g hg16, nibble_assemble b hb16⟩

/-- Splitting a `WIDTH`-strided address into stride count and column is
injective when the column is in range. -/
theorem stride_addr_inj (w q q' x x' : Nat) (hx : x < w) (hx' : x' < w)
    (h : w * q + x = w * q' + x') : q = q' ∧ x = x' := by
  have hxx : x = x' := by
    have h1 : (w * q + x) % w = (w * q' + x') % w := by rw [h]
    rwa [Nat.mul_add_mod, Nat.mul_add_mod, Nat.mod_eq_of_lt hx, Nat.mod_eq_of_lt hx'] at h1
  subst hxx
  have hw : 0 < w := by omega
  have h2 : w * q = w * q' := by omega
  exact ⟨Nat.eq_of_mul_eq_mul_left hw h2, rfl⟩

/-- Two packed byte addresses `B0 + row*w*3 + x + w*s` coincide only for the
same row, column and stride. -/
theorem pix_addr_inj (vB vw vy vy' vx vx' vs vs' : Nat) (hx : vx < vw) (hx' : vx' < vw)
    (hs : vs < 3) (hs' : vs' < 3)
    (h : vB + vy * vw * 3 + vx + vw * vs = vB + vy' * vw * 3 + vx' + vw * vs') :
    vy = vy' ∧ vx = vx' ∧ vs = vs' := by
  have e1 : vB + vy * vw * 3 + vx + vw * vs = vB + (vw * (vy * 3 + vs) + vx) := by ring
  have e2 : vB + vy' * vw * 3 + vx' + vw * vs' = vB + (vw * (vy' * 3 + vs') + vx') := by ring
  have h' : vw * (vy * 3 + vs) + vx = vw * (vy' * 3 + vs') + vx' := by omega
  obtain ⟨hq, hxx⟩ := stride_addr_inj vw _ _ _ _ hx hx' h'
  omega

/-- Contrapositive form of `pix_addr_inj`. -/
theorem pix_addr_ne (vB vw vy vy' vx vx' vs vs' : Nat) (hx : vx < vw) (hx' : vx' < vw)
    (hs : vs < 3) (hs' : vs' < 3) (hne : ¬(vy = vy' ∧ vx = vx' ∧ vs = vs')) :
    vB + vy * vw * 3 + vx + vw * vs ≠ vB + vy' * vw * 3 + vx' + vw * vs' :=
  fun h => hne (pix_addr_inj vB vw vy vy' vx vx' vs vs' hx hx' hs hs' h)

/-- `decodePixel` only looks at the three bytes of its pixel, so it is
unchanged by any memory modification that leaves those bytes alone. -/
theorem decodePixel_congr (p : Panel) (m' : Nat → Nat) (x y : Nat)
    (h : ∀ s, s < 3 →
      m' (p.matrixbuff p.backindex + (if y < p.nRows then y else y - p.nRows) * p.width * 3 +
          x + p.width * s) =
        p.mem (p.matrixbuff p.backindex + (if y < p.nRows then y else y - p.nRows) * p.width * 3 +
          x + p.width * s)) :
    decodePixel { p with mem := m' } x y = decodePixel p x y := by
  by_cases hyr : y < p.nRows
  · rw [if_pos hyr] at h
    have h0 : m' (p.matrixbuff p.backindex + y * p.width * 3 + x) =
        p.mem (p.matrixbuff p.backindex + y * p.width * 3 + x) := by
      have hh := h 0 (by omega)
      simpa using hh
    have h1 : m' (p.matrixbuff p.backindex + y * p.width * 3 + x + p.width) =
        p.mem (p.matrixbuff p.backindex + y * p.width * 3 + x + p.width) := by
      have hh := h 1 (by omega)
      simpa using hh
    have h2 : m' (p.matrixbuff p.backindex + y * p.width * 3 + x + p.width * 2) =
        p.mem (p.matrixbuff p.backindex + y * p.width * 3 + x + p.width * 2) := by
      have hh := h 2 (by omega)
      simpa using hh
    unfold decodePixel planeBit
    rw [if_pos hyr, if_pos hyr]
    simp only [h0, h1, h2]
  · rw [if_neg hyr] at h
    have h0 : m' (p.matrixbuff p.backindex + (y - p.nRows) * p.width * 3 + x) =
        p.mem (p.matrixbuff p.backindex + (y - p.nRows) * p.width * 3 + x) := by
      have hh := h 0 (by omega)
      simpa using hh
    have h1 : m' (p.matrixbuff p.backindex + (y - p.nRows) * p.width * 3 + x + p.width) =
        p.mem (p.matrixbuff p.backindex + (y - p.nRows) * p.width * 3 + x + p.width) := by
      have hh := h 1 (by omega)
      simpa using hh
    have h2 : m' (p.matrixbuff p.backindex + (y - p.nRows) * p.width * 3 + x + p.width * 2) =
        p.mem (p.matrixbuff p.backindex + (y - p.nRows) * p.width * 3 + x + p.width * 2) := by
      have hh := h 2 (by omega)
      simpa using hh
    unfold decodePixel planeBit
    rw [if_neg hyr, if_neg hyr]
    simp only [h0, h1, h2]

/-- Writing one pixel leaves the decoded color of every other in-range
pixel unchanged, including the partner pixel that shares the same three
packed bytes. -/
theorem drawPixel_decode_other (p : Panel) (x y c : Nat)
    (hrot : p.rotation = 0) (hx : x < p.width) (hy : y < 2 * p.nRows)
    (hwf : ∀ i, p.mem i < 256) (x' y' : Nat)
    (hx' : x' < p.width) (hy' : y' < 2 * p.nRows) (hnexy : (x', y') ≠ (x, y)) :
    decodePixel (drawPixel p (x : Int) (y : Int) c) x' y' = decodePixel p x' y' := by
  have hw : 0 < p.width := by omega
  have hmem : ∀ j, drawPixelMem p (x : Int) (y : Int) c j =
      byteAct p.width p.nRows (p.matrixbuff p.backindex) x y c j (p.mem j) :=
    fun j => drawPixel_mem_apply p x y c j hrot hx hy
  set r := c >>> 12 with hrdef
  set g := (c >>> 7) &&& 0xF with hgdef
  set b := (c >>> 1) &&& 0xF with hbdef
  by_cases hyr : y < p.nRows
  · by_cases hpart : x' = x ∧ ¬(y' < p.nRows) ∧ y' - p.nRows = y
    · -- partner pixel: lower-half decode over the same three bytes
      obtain ⟨hxeq, hyr', hyeq⟩ := hpart
      subst hxeq
      set base := p.matrixbuff p.backindex + y * p.width * 3 + x' with hbasedef
      have ne1 : base + p.width ≠ base := by omega
      have ne2 : base + p.width * 2 ≠ base := by omega
      have ne3 : base + p.width * 2 ≠ base + p.width := by omega
      have hA : byteAct p.width p.nRows (p.matrixbuff p.backindex) x' y c base (p.mem base) =
          upperByte0 r g b (p.mem base) := by
        unfold byteAct
        rw [if_pos hyr, if_pos rfl]
      have hB : byteAct p.width p.nRows (p.matrixbuff p.backindex) x' y c (base + p.width)
          (p.mem (base + p.width)) = upperByte1 r g b (p.mem (base + p.width)) := by
        unfold byteAct
        rw [if_pos hyr, if_neg ne1, if_pos rfl]
      have hC : byteAct p.width p.nRows (p.matrixbuff p.backindex) x' y c (base + p.width * 2)
          (p.mem (base + p.width * 2)) = upperByte2 r g b (p.mem (base + p.width * 2)) := by
        unfold byteAct
        rw [if_pos hyr, if_neg ne2, if_neg ne3, if_pos rfl]
      obtain ⟨-, a0, a1, a2, a3, a4, a5, a6, a7⟩ :=
        upperByte0_spec (p.mem base) (hwf base) r g b
      obtain ⟨-, b0, b1, b2, b3, b4, b5, b6, b7⟩ :=
        upperByte1_spec (p.mem (base + p.width)) (hwf (base + p.width)) r g b
      obtain ⟨-, c0, c1, c2, c3, c4, c5, c6, c7⟩ :=
        upperByte2_spec (p.mem (base + p.width * 2)) (hwf (base + p.width * 2)) r g b
      unfold decodePixel planeBit
      simp only [drawPixel, hmem]
      rw [if_neg hyr', if_neg hyr', hyeq]
      rw [hA, hB, hC]
      rw [b1, a5, b5, c5, a0, a6, b6, c6, a1, a7, b7, c7]
    · -- three untouched bytes
      have h : ∀ s, s < 3 →
          drawPixelMem p (x : Int) (y : Int) c
            (p.matrixbuff p.backindex +
              (if y' < p.nRows then y' else y' - p.nRows) * p.width * 3 + x' + p.width * s) =
          p.mem (p.matrixbuff p.backindex +
              (if y' < p.nRows then y' else y' - p.nRows) * p.width * 3 + x' + p.width * s) := by
        intro s hs
        have hcond : ¬((if y' < p.nRows then y' else y' - p.nRows) = y ∧ x' = x ∧ True) := by
          by_cases hyr' : y' < p.nRows
          · rw [if_pos hyr']
            rintro ⟨hey, hex, -⟩
            exact hnexy (by rw [hex, hey])
          · rw [if_neg hyr']
            rintro ⟨hey, hex, -⟩
            exact hpart ⟨hex, hyr', hey⟩
        have d0 : p.matrixbuff p.backindex +
            (if y' < p.nRows then y' else y' - p.nRows) * p.width * 3 + x' + p.width * s ≠
            p.matrixbuff p.backindex + y * p.width * 3 + x := by
          have hne := pix_addr_ne (p.matrixbuff p.backindex) p.width
            (if y' < p.nRows then y' else y' - p.nRows) y x' x s 0 hx' hx hs (by omega)
            (fun hh => hcond ⟨hh.1, hh.2.1, trivial⟩)
          simpa using hne
        have d1 : p.matrixbuff p.backindex +
            (if y' < p.nRows then y' else y' - p.nRows) * p.width * 3 + x' + p.width * s ≠
            p.matrixbuff p.backindex + y * p.width * 3 + x + p.width := by
          have hne := pix_addr_ne (p.matrixbuff p.backindex) p.width
            (if y' < p.nRows then y' else y' - p.nRows) y x' x s 1 hx' hx hs (by omega)
            (fun hh => hcond ⟨hh.1, hh.2.1, trivial⟩)
          simpa using hne
        have d2 : p.matrixbuff p.backindex +
            (if y' < p.nRows then y' else y' - p.nRows) * p.width * 3 + x' + p.width * s ≠
            p.matrixbuff p.backindex + y * p.width * 3 + x + p.width * 2 := by
          have hne := pix_addr_ne (p.matrixbuff p.backindex) p.width
            (if y' < p.nRows then y' else y' - p.nRows) y x' x s 2 hx' hx hs (by omega)
            (fun hh => hcond ⟨hh.1, hh.2.1, trivial⟩)
          simpa using hne
        rw [hmem]
        unfold byteAct
        rw [if_pos hyr, if_neg d0, if_neg d1, if_neg d2]
      exact decodePixel_congr p (drawPixelMem p (x : Int) (y : Int) c) x' y' h
  · by_cases hpart : x' = x ∧ y' < p.nRows ∧ y - p.nRows = y'
    · -- partner pixel: upper-half decode over the same three bytes
      obtain ⟨hxeq, hyr', hyeq⟩ := hpart
      subst hxeq
      set base := p.matrixbuff p.backindex + (y - p.nRows) * p.width * 3 + x' with hbasedef
      have ne1 : base + p.width ≠ base := by omega
      have ne2 : base + p.width * 2 ≠ base := by omega
      have ne3 : base + p.width * 2 ≠ base + p.width := by omega
      have hA : byteAct p.width p.nRows (p.matrixbuff p.backindex) x' y c base (p.mem base) =
          lowerByte0 r g b (p.mem base) := by
        unfold byteAct
        rw [if_neg hyr, if_pos rfl]
      have hB : byteAct p.width p.nRows (p.matrixbuff p.backindex) x' y c (base + p.width)
          (p.mem (base + p.width)) = lowerByte1 r g b (p.mem (base + p.width)) := by
        unfold byteAct
        rw [if_neg hyr, if_neg ne1, if_pos rfl]
      have hC : byteAct p.width p.nRows (p.matrixbuff p.backindex) x' y c (base + p.width * 2)
          (p.mem (base + p.width * 2)) = lowerByte2 r g b (p.mem (base + p.width * 2)) := by
        unfold byteAct
        rw [if_neg hyr, if_neg ne2, if_neg ne3, if_pos rfl]
      obtain ⟨-, a0, a1, a2, a3, a4, a5, a6, a7⟩ :=
        lowerByte0_spec (p.mem base) (hwf base) r g b
      obtain ⟨-, b0, b1, b2, b3, b4, b5, b6, b7⟩ :=
        lowerByte1_spec (p.mem (base + p.width)) (hwf (base + p.width)) r g b
      obtain ⟨-, c0, c1, c2, c3, c4, c5, c6, c7⟩ :=
        lowerByte2_spec (p.mem (base + p.width * 2)) (hwf (base + p.width * 2)) r g b
      unfold decodePixel planeBit
      simp only [drawPixel, hmem]
      rw [if_pos hyr', if_pos hyr', ← hyeq]
      rw [hA, hB, hC]
      rw [c0, a2, b2, c2, c1, a3, b3, c3, b0, a4, b4, c4]
    · -- three untouched bytes
      have h : ∀ s, s < 3 →
          drawPixelMem p (x : Int) (y : Int) c
            (p.matrixbuff p.backindex +
              (if y' < p.nRows then y' else y' - p.nRows) * p.width * 3 + x' + p.width * s) =
          p.mem (p.matrixbuff p.backindex +
              (if y' < p.nRows then y' else y' - p.nRows) * p.width * 3 + x' + p.width * s) := by
        intro s hs
        have hcond : ¬((if y' < p.nRows then y' else y' - p.nRows) = y - p.nRows ∧ x' = x ∧ True) := by
          by_cases hyr' : y' < p.nRows
          · rw [if_pos hyr']
            rintro ⟨hey, hex, -⟩
            exact hpart ⟨hex, hyr', hey.symm⟩
          · rw [if_neg hyr']
            rintro ⟨hey, hex, -⟩
            have : y' = y := by omega
            exact hnexy (by rw [hex, this])
        have d0 : p.matrixbuff p.backindex +
            (if y' < p.nRows then y' else y' - p.nRows) * p.width * 3 + x' + p.width * s ≠
            p.matrixbuff p.backindex + (y - p.nRows) * p.width * 3 + x := by
          have hne := pix_addr_ne (p.matrixbuff p.backindex) p.width
            (if y' < p.nRows then y' else y' - p.nRows) (y - p.nRows) x' x s 0 hx' hx hs (by omega)
            (fun hh => hcond ⟨hh.1, hh.2.1, trivial⟩)
          simpa using hne
        have d1 : p.matrixbuff p.backindex +
            (if y' < p.nRows then y' else y' - p.nRows) * p.width * 3 + x' + p.width * s ≠
            p.matrixbuff p.backindex + (y - p.nRows) * p.width * 3 + x + p.width := by
          have hne := pix_addr_ne (p.matrixbuff p.backindex) p.width
            (if y' < p.nRows then y' else y' - p.nRows) (y - p.nRows) x' x s 1 hx' hx hs (by omega)
            (fun hh => hcond ⟨hh.1, hh.2.1, trivial⟩)
          simpa using hne
        have d2 : p.matrixbuff p.backindex +
            (if y' < p.nRows then y' else y' - p.nRows) * p.width * 3 + x' + p.width * s ≠
            p.matrixbuff p.backindex + (y - p.nRows) * p.width * 3 + x + p.width * 2 := by
          have hne := pix_addr_ne (p.matrixbuff p.backindex) p.width
            (if y' < p.nRows then y' else y' - p.nRows) (y - p.nRows) x' x s 2 hx' hx hs (by omega)
            (fun hh => hcond ⟨hh.1, hh.2.1, trivial⟩)
          simpa using hne
        rw [hmem]
        unfold byteAct
        rw [if_neg hyr, if_neg d0, if_neg d1, if_neg d2]
      exact decodePixel_congr p (drawPixelMem p (x : Int) (y : Int) c) x' y' h

/-- Claim C9: a rotation-0 in-range `drawPixel(x, y, c)` modifies only the
three bytes at offsets `row*WIDTH*3 + s*WIDTH + x` (with `row` rebased into
the scan half), keeps every byte an 8-bit value, touches within those
bytes only the bit positions assigned to that half (bits 2–4 plus the
spare plane-0 bits for the upper half; bits 5–7 plus the spare plane-0
bits for the lower half — the complementary positions listed here are
preserved), and leaves the decoded color of every other in-range pixel,
including the partner pixel sharing the same three bytes, unchanged. -/
theorem drawPixel_frame_effect (p : Panel) (x y c : Nat)
    (hrot : p.rotation = 0) (hx : x < p.width) (hy : y < 2 * p.nRows)
    (hwf : ∀ i, p.mem i < 256) :
    (∀ j, j ≠ p.matrixbuff p.backindex + (if y < p.nRows then y else y - p.nRows) * p.width * 3 + x →
      j ≠ p.matrixbuff p.backindex + (if y < p.nRows then y else y - p.nRows) * p.width * 3 + x + p.width →
      j ≠ p.matrixbuff p.backindex + (if y < p.nRows then y else y - p.nRows) * p.width * 3 + x + p.width * 2 →
      (drawPixel p (x : Int) (y : Int) c).mem j = p.mem j) ∧
    (∀ j, (drawPixel p (x : Int) (y : Int) c).mem j < 256) ∧
    (∀ k, k ∈ (if y < p.nRows then [0, 1, 5, 6, 7] else [2, 3, 4] : List Nat) →
      planeBit (drawPixel p (x : Int) (y : Int) c).mem
        (p.matrixbuff p.backindex + (if y < p.nRows then y else y - p.nRows) * p.width * 3 + x) k =
      planeBit p.mem
        (p.matrixbuff p.backindex + (if y < p.nRows then y else y - p.nRows) * p.width * 3 + x) k) ∧
    (∀ k, k ∈ (if y < p.nRows then [1, 5, 6, 7] else [0, 2, 3, 4] : List Nat) →
      planeBit (drawPixel p (x : Int) (y : Int) c).mem
        (p.matrixbuff p.backindex + (if y < p.nRows then y else y - p.nRows) * p.width * 3 + x + p.width) k =
      planeBit p.mem
        (p.matrixbuff p.backindex + (if y < p.nRows then y else y - p.nRows) * p.width * 3 + x + p.width) k) ∧
    (∀ k, k ∈ (if y < p.nRows then [5, 6, 7] else [0, 1, 2, 3, 4] : List Nat) →
      planeBit (drawPixel p (x : Int) (y : Int) c).mem
        (p.matrixbuff p.backindex + (if y < p.nRows then y else y - p.nRows) * p.width * 3 + x + p.width * 2) k =
      planeBit p.mem
        (p.matrixbuff p.backindex + (if y < p.nRows then y else y - p.nRows) * p.width * 3 + x + p.width * 2) k) ∧
    (∀ x' y', x' < p.width → y' < 2 * p.nRows → (x', y') ≠ (x, y) →
      decodePixel (drawPixel p (x : Int) (y : Int) c) x' y' = decodePixel p x' y') := by
  have hw : 0 < p.width := by omega
  have hmem : ∀ j, drawPixelMem p (x : Int) (y : Int) c j =
      byteAct p.width p.nRows (p.matrixbuff p.backindex) x y c j (p.mem j) :=
    fun j => drawPixel_mem_apply p x y c j hrot hx hy
  set r := c >>> 12 with hrdef
  set g := (c >>> 7) &&& 0xF with hgdef
  set b := (c >>> 1) &&& 0xF with hbdef
  refine ⟨?_, ?_, ?_, ?_, ?_,
    fun x' y' hx' hy' hne => drawPixel_decode_other p x y c hrot hx hy hwf x' y' hx' hy' hne⟩
  · intro j hj0 hj1 hj2
    show drawPixelMem p (x : Int) (y : Int) c j = p.mem j
    rw [hmem j]
    unfold byteAct
    by_cases hyr : y < p.nRows
    · rw [if_pos hyr] at hj0 hj1 hj2
      rw [if_pos hyr, if_neg hj0, if_neg hj1, if_neg hj2]
    · rw [if_neg hyr] at hj0 hj1 hj2
      rw [if_neg hyr, if_neg hj0, if_neg hj1, if_neg hj2]
  · intro j
    show drawPixelMem p (x : Int) (y : Int) c j < 256
    rw [hmem j]
    unfold byteAct
    simp only []
    split_ifs <;>
      first
        | exact hwf j
        | exact (upperByte0_spec _ (hwf j) r g b).1
        | exact (upperByte1_spec _ (hwf j) r g b).1
        | exact (upperByte2_spec _ (hwf j) r g b).1
        | exact (lowerByte0_spec _ (hwf j) r g b).1
        | exact (lowerByte1_spec _ (hwf j) r g b).1
        | exact (lowerByte2_spec _ (hwf j) r g b).1
  · intro k hk
    by_cases hyr : y < p.nRows
    · rw [if_pos hyr] at hk ⊢
      have hval : (drawPixel p (x : Int) (y : Int) c).mem
          (p.matrixbuff p.backindex + y * p.width * 3 + x) =
          upperByte0 r g b (p.mem (p.matrixbuff p.backindex + y * p.width * 3 + x)) := by
        show drawPixelMem p (x : Int) (y : Int) c _ = _
        rw [hmem]
        unfold byteAct
        rw [if_pos hyr, if_pos rfl]
      unfold planeBit
      rw [hval]
      obtain ⟨-, a0, a1, a2, a3, a4, a5, a6, a7⟩ :=
        upperByte0_spec (p.mem (p.matrixbuff p.backindex + y * p.width * 3 + x))
          (hwf _) r g b
      simp only [List.mem_cons, List.mem_singleton, List.not_mem_nil, or_false] at hk
      rcases hk with rfl | rfl | rfl | rfl | rfl
      exacts [a0, a1, a5, a6, a7]
    · rw [if_neg hyr] at hk ⊢
      have hval : (drawPixel p (x : Int) (y : Int) c).mem
          (p.matrixbuff p.backindex + (y - p.nRows) * p.width * 3 + x) =
          lowerByte0 r g b (p.mem (p.matrixbuff p.backindex + (y - p.nRows) * p.width * 3 + x)) := by
        show drawPixelMem p (x : Int) (y : Int) c _ = _
        rw [hmem]
        unfold byteAct
        rw [if_neg hyr, if_pos rfl]
      unfold planeBit
      rw [hval]
      obtain ⟨-, a0, a1, a2, a3, a4, a5, a6, a7⟩ :=
        lowerByte0_spec (p.mem (p.matrixbuff p.backindex + (y - p.nRows) * p.width * 3 + x))
          (hwf _) r g b
      simp only [List.mem_cons, List.mem_singleton, List.not_mem_nil, or_false] at hk
      rcases hk with rfl | rfl | rfl
      exacts [a2, a3, a4]
  · intro k hk
    by_cases hyr : y < p.nRows
    · rw [if_pos hyr] at hk ⊢
      have ne1 : p.matrixbuff p.backindex + y * p.width * 3 + x + p.width ≠
          p.matrixbuff p.backindex + y * p.width * 3 + x := by omega
      have hval : (drawPixel p (x : Int) (y : Int) c).mem
          (p.matrixbuff p.backindex + y * p.width * 3 + x + p.width) =
          upperByte1 r g b (p.mem (p.matrixbuff p.backindex + y * p.width * 3 + x + p.width)) := by
        show drawPixelMem p (x : Int) (y : Int) c _ = _
        rw [hmem]
        unfold byteAct
        rw [if_pos hyr, if_neg ne1, if_pos rfl]
      unfold planeBit
      rw [hval]
      obtain ⟨-, b0, b1, b2, b3, b4, b5, b6, b7⟩ :=
        upperByte1_spec (p.mem (p.matrixbuff p.backindex + y * p.width * 3 + x + p.width))
          (hwf _) r g b
      simp only [List.mem_cons, List.mem_singleton, List.not_mem_nil, or_false] at hk
      rcases hk with rfl | rfl | rfl | rfl
      exacts [b1, b5, b6, b7]
    · rw [if_neg hyr] at hk ⊢
      have ne1 : p.matrixbuff p.backindex + (y - p.nRows) * p.width * 3 + x + p.width ≠
          p.matrixbuff p.backindex + (y - p.nRows) * p.width * 3 + x := by omega
      have hval : (drawPixel p (x : Int) (y : Int) c).mem
          (p.matrixbuff p.backindex + (y - p.nRows) * p.width * 3 + x + p.width) =
          lowerByte1 r g b
            (p.mem (p.matrixbuff p.backindex + (y - p.nRows) * p.width * 3 + x + p.width)) := by
        show drawPixelMem p (x : Int) (y : Int) c _ = _
        rw [hmem]
        unfold byteAct
        rw [if_neg hyr, if_neg ne1, if_pos rfl]
      unfold planeBit
      rw [hval]
      obtain ⟨-, b0, b1, b2, b3, b4, b5, b6, b7⟩ :=
        lowerByte1_spec (p.mem (p.matrixbuff p.backindex + (y - p.nRows) * p.width * 3 + x + p.width))
          (hwf _) r g b
      simp only [List.mem_cons, List.mem_singleton, List.not_mem_nil, or_false] at hk
      rcases hk with rfl | rfl | rfl | rfl
      exacts [b0, b2, b3, b4]
  · intro k hk
    by_cases hyr : y < p.nRows
    · rw [if_pos hyr] at hk ⊢
      have ne2 : p.matrixbuff p.backindex + y * p.width * 3 + x + p.width * 2 ≠
          p.matrixbuff p.backindex + y * p.width * 3 + x := by omega
      have ne3 : p.matrixbuff p.backindex + y * p.width * 3 + x + p.width * 2 ≠
          p.matrixbuff p.backindex + y * p.width * 3 + x + p.width := by omega
      have hval : (drawPixel p (x : Int) (y : Int) c).mem
          (p.matrixbuff p.backindex + y * p.width * 3 + x + p.width * 2) =
          upperByte2 r g b
            (p.mem (p.matrixbuff p.backindex + y * p.width * 3 + x + p.width * 2)) := by
        show drawPixelMem p (x : Int) (y : Int) c _ = _
        rw [hmem]
        unfold byteAct
        rw [if_pos hyr, if_neg ne2, if_neg ne3, if_pos rfl]
      unfold planeBit
      rw [hval]
      obtain ⟨-, c0, c1, c2, c3, c4, c5, c6, c7⟩ :=
        upperByte2_spec (p.mem (p.matrixbuff p.backindex + y * p.width * 3 + x + p.width * 2))
          (hwf _) r g b
      simp only [List.mem_cons, List.mem_singleton, List.not_mem_nil, or_false] at hk
      rcases hk with rfl | rfl | rfl
      exacts [c5, c6, c7]
    · rw [if_neg hyr] at hk ⊢
      have ne2 : p.matrixbuff p.backindex + (y - p.nRows) * p.width * 3 + x + p.width * 2 ≠
          p.matrixbuff p.backindex + (y - p.nRows) * p.width * 3 + x := by omega
      have ne3 : p.matrixbuff p.backindex + (y - p.nRows) * p.width * 3 + x + p.width * 2 ≠
          p.matrixbuff p.backindex + (y - p.nRows) * p.width * 3 + x + p.width := by omega
      have hval : (drawPixel p (x : Int) (y : Int) c).mem
          (p.matrixbuff p.backindex + (y - p.nRows) * p.width * 3 + x + p.width * 2) =
          lowerByte2 r g b
            (p.mem (p.matrixbuff p.backindex + (y - p.nRows) * p.width * 3 + x + p.width * 2)) := by
        show drawPixelMem p (x : Int) (y : Int) c _ = _
        rw [hmem]
        unfold byteAct
        rw [if_neg hyr, if_neg ne2, if_neg ne3, if_pos rfl]
      unfold planeBit
      rw [hval]
      obtain ⟨-, c0, c1, c2, c3, c4, c5, c6, c7⟩ :=
        lowerByte2_spec
          (p.mem (p.matrixbuff p.backindex + (y - p.nRows) * p.width * 3 + x + p.width * 2))
          (hwf _) r g b
      simp only [List.mem_cons, List.mem_singleton, List.not_mem_nil, or_false] at hk
      rcases hk with rfl | rfl | rfl | rfl | rfl
      exacts [c0, c1, c2, c3, c4]

/-- Witness for C9: writing red at `(0,0)` leaves an unrelated byte and the
decoded color of the partner pixel `(0,16)` unchanged. -/
theorem drawPixel_frame_effect_witness :
    panel32.rotation = 0 ∧
      (drawPixel panel32 0 0 0xF800).mem 100 = panel32.mem 100 ∧
      decodePixel (drawPixel panel32 0 0 0xF800) 0 16 = decodePixel panel32 0 16 := by
  have h := drawPixel_frame_effect panel32 0 0 0xF800 rfl (by decide) (by decide)
    (fun i => by simp [panel32])
  exact ⟨rfl, h.1 100 (by decide) (by decide) (by decide),
    h.2.2.2.2.2 0 16 (by decide) (by decide) (by decide)⟩

/-- Folding over a `flatMap` is the fold of the row folds. -/
theorem foldl_flatMap {α β γ : Type} (f : γ → β → γ) (ys : List α) (h : α → List β) :
    ∀ v, (ys.flatMap h).foldl f v = ys.foldl (fun v y => (h y).foldl f v) v := by
  induction ys with
  | nil => intro v; rfl
  | cons a t ih =>
    intro v
    simp only [List.flatMap_cons, List.foldl_append, List.foldl_cons, ih]

/-- A fold whose every step is the identity returns its argument. -/
theorem foldl_id_of {α : Type} (f : Nat → α → Nat) (l : List α)
    (h : ∀ a ∈ l, ∀ v, f v a = v) : ∀ v, l.foldl f v = v := by
  induction l with
  | nil => intro v; rfl
  | cons a t ih =>
    intro v
    rw [List.foldl_cons, h a (List.mem_cons_self a t)]
    exact ih (fun z hz u => h z (List.mem_cons_of_mem a hz) u) v

/-- A fold over `range n` in which only index `y1` acts. -/
theorem foldl_one_hit (G : Nat → Nat → Nat) : ∀ n y1 : Nat, y1 < n →
    (∀ y, y < n → y ≠ y1 → ∀ v, G v y = v) →
    ∀ v, (List.range n).foldl G v = G v y1 := by
  intro n
  induction n with
  | zero => intro y1 h1 hid v; omega
  | succ m ih =>
    intro y1 h1 hid v
    rw [List.range_succ, List.foldl_append, List.foldl_cons, List.foldl_nil]
    by_cases hm : y1 = m
    · rw [← hm]
      rw [foldl_id_of G (List.range y1)
        (fun a ha u => hid a (by have := List.mem_range.mp ha; omega)
          (by have := List.mem_range.mp ha; omega) u) v]
    · rw [hid m (by omega) (fun hh => hm hh.symm), ih y1 (by omega)
        (fun z hz hzne u => hid z (by omega) hzne u) v]

/-- A fold over `range n` in which only indices `y1 < y2` act. -/
theorem foldl_two_hits (G : Nat → Nat → Nat) (y1 y2 : Nat) : ∀ n, y1 < y2 → y2 < n →
    (∀ y, y < n → y ≠ y1 → y ≠ y2 → ∀ v, G v y = v) →
    ∀ v, (List.range n).foldl G v = G (G v y1) y2 := by
  intro n
  induction n with
  | zero => intro hy h2 hid v; omega
  | succ m ih =>
    intro hy h2 hid v
    rw [List.range_succ, List.foldl_append, List.foldl_cons, List.foldl_nil]
    by_cases hm : y2 = m
    · rw [← hm]
      rw [foldl_one_hit G y2 y1 (by omega)
        (fun y hy1 hy2 u => hid y (by omega) hy2 (by omega) u) v]
    · rw [hid m (by omega) (by omega) (fun hh => hm hh.symm),
        ih hy (by omega) (fun z hz hz1 hz2 u => hid z (by omega) hz1 hz2 u) v]

/-- `byteAct` leaves a byte alone when the byte is none of its pixel's
three addresses. -/
theorem byteAct_ne (w nR B0 vx vy c j v : Nat)
    (h0 : j ≠ B0 + (if vy < nR then vy else vy - nR) * w * 3 + vx)
    (h1 : j ≠ B0 + (if vy < nR then vy else vy - nR) * w * 3 + vx + w)
    (h2 : j ≠ B0 + (if vy < nR then vy else vy - nR) * w * 3 + vx + w * 2) :
    byteAct w nR B0 vx vy c j v = v := by
  unfold byteAct
  by_cases hyr : vy < nR
  · rw [if_pos hyr] at h0 h1 h2
    rw [if_pos hyr, if_neg h0, if_neg h1, if_neg h2]
  · rw [if_neg hyr] at h0 h1 h2
    rw [if_neg hyr, if_neg h0, if_neg h1, if_neg h2]

/-- `byteAct` of a pixel whose rebased row or column differs from the
byte's leaves the byte alone. -/
theorem byteAct_untouched (w nR B0 vx vy c j v : Nat) (hx' : vx < w)
    (rr k xx : Nat) (hk : k < 3) (hxx : xx < w)
    (hj : j = B0 + rr * w * 3 + xx + w * k)
    (hne : ¬((if vy < nR then vy else vy - nR) = rr ∧ vx = xx)) :
    byteAct w nR B0 vx vy c j v = v := by
  apply byteAct_ne
  · rw [hj]
    have hd := pix_addr_ne B0 w rr (if vy < nR then vy else vy - nR) xx vx k 0 hxx hx' hk
      (by omega) (fun hh => hne ⟨hh.1.symm, hh.2.1.symm⟩)
    simpa using hd
  · rw [hj]
    have hd := pix_addr_ne B0 w rr (if vy < nR then vy else vy - nR) xx vx k 1 hxx hx' hk
      (by omega) (fun hh => hne ⟨hh.1.symm, hh.2.1.symm⟩)
    simpa using hd
  · rw [hj]
    have hd := pix_addr_ne B0 w rr (if vy < nR then vy else vy - nR) xx vx k 2 hxx hx' hk
      (by omega) (fun hh => hne ⟨hh.1.symm, hh.2.1.symm⟩)
    simpa using hd

/-- Packed byte addresses stay inside the buffer region. -/
theorem pix_addr_lt (B0 w nR vY vx s : Nat) (hY : vY < nR) (hx' : vx < w) (hs : s < 3) :
    B0 + vY * w * 3 + vx + w * s < B0 + w * nR * 3 := by
  have h1 : (vY + 1) * (w * 3) ≤ nR * (w * 3) := Nat.mul_le_mul_right _ (by omega)
  have e1 : (vY + 1) * (w * 3) = vY * w * 3 + w * 3 := by ring
  have e2 : nR * (w * 3) = w * nR * 3 := by ring
  have h2 : w * s ≤ w * 2 := Nat.mul_le_mul_left _ (by omega)
  omega

/-- Every buffer offset decomposes into row, stride and column. -/
theorem region_decomp (w nR q : Nat) (hw : 0 < w) (hq : q < w * nR * 3) :
    ∃ rr k xx, rr < nR ∧ k < 3 ∧ xx < w ∧ q = rr * w * 3 + xx + w * k := by
  refine ⟨q / w / 3, q / w % 3, q % w, ?_, Nat.mod_lt _ (by omega), Nat.mod_lt _ hw, ?_⟩
  · have hlt : q / w < 3 * nR := by
      rw [Nat.div_lt_iff_lt_mul hw]
      have e : 3 * nR * w = w * nR * 3 := by ring
      omega
    omega
  · have h1 : w * (q / w) + q % w = q := Nat.div_add_mod q w
    have h2 : 3 * (q / w / 3) + q / w % 3 = q / w := Nat.div_add_mod (q / w) 3
    have h3 : w * (3 * (q / w / 3) + q / w % 3) = w * (q / w) := by rw [h2]
    have e : q / w / 3 * w * 3 + q % w + w * (q / w % 3) =
        w * (3 * (q / w / 3) + q / w % 3) + q % w := by ring
    omega

/-- Membership in the full pixel enumeration. -/
theorem mem_allPixels (w h : Nat) (xy : Nat × Nat) :
    xy ∈ allPixels w h ↔ xy.1 < w ∧ xy.2 < h := by
  rcases xy with ⟨a, b⟩
  simp only [allPixels, List.mem_flatMap, List.mem_map, List.mem_range]
  constructor
  · rintro ⟨y, hy, x, hx, heq⟩
    rw [Prod.mk.injEq] at heq
    obtain ⟨rfl, rfl⟩ := heq
    exact ⟨hx, hy⟩
  · rintro ⟨ha, hb⟩
    exact ⟨b, hb, a, ha, rfl⟩

/-- Pointwise byte view of the per-pixel fill: folding `drawPixel` over a
list of rotation-0 in-range pixels acts on each byte by folding
`byteAct`. -/
theorem pixelFillList_mem (c : Nat) (l : List (Nat × Nat)) :
    ∀ p : Panel, p.rotation = 0 →
    (∀ xy ∈ l, xy.1 < p.width ∧ xy.2 < 2 * p.nRows) → ∀ j,
    (pixelFillList p c l).mem j =
      l.foldl (fun v xy => byteAct p.width p.nRows (p.matrixbuff p.backindex) xy.1 xy.2 c j v)
        (p.mem j) := by
  induction l with
  | nil => intro p _ _ j; rfl
  | cons xy t ih =>
    intro p hrot hall j
    have hhead := hall xy (List.mem_cons_self xy t)
    show (pixelFillList (drawPixel p (xy.1 : Int) (xy.2 : Int) c) c t).mem j = _
    rw [ih (drawPixel p (xy.1 : Int) (xy.2 : Int) c) hrot
      (fun z hz => hall z (List.mem_cons_of_mem xy hz)) j]
    rw [List.foldl_cons]
    rw [drawPixel_mem_apply p xy.1 xy.2 c j hrot hhead.1 hhead.2]
    rfl

set_option maxHeartbeats 1000000 in
/-- Composing the upper and lower per-byte writes for black (`r=g=b=0`)
clears every bit; for white (`r=g=b=15`) it sets every bit. -/
theorem fill_compose : ∀ old, old < 256 →
    lowerByte0 0 0 0 (upperByte0 0 0 0 old) = 0 ∧
    lowerByte1 0 0 0 (upperByte1 0 0 0 old) = 0 ∧
    lowerByte2 0 0 0 (upperByte2 0 0 0 old) = 0 ∧
    lowerByte0 15 15 15 (upperByte0 15 15 15 old) = 255 ∧
    lowerByte1 15 15 15 (upperByte1 15 15 15 old) = 255 ∧
    lowerByte2 15 15 15 (upperByte2 15 15 15 old) = 255 := by
  decide

/-- Claim C3: for black (`0x0000`) and white (`0xFFFF`), the single-`memset`
fast path of `fillScreen` produces a buffer byte-for-byte identical to
calling `drawPixel` on every visible pixel individually. -/
theorem fillScreen_equiv_pixel_fill (p : Panel) (c : Nat)
    (hc : c = 0x0000 ∨ c = 0xFFFF) (hrot : p.rotation = 0)
    (hwf : ∀ i, p.mem i < 256) (hw : 0 < p.width) :
    ∀ j, (fillScreen p c).mem j = (pixelFill p c).mem j := by
  intro j
  have hgw : gfxWidth p = p.width := by simp [gfxWidth, hrot]
  have hgh : gfxHeight p = 2 * p.nRows := by simp [gfxHeight, hrot]
  have hall : ∀ xy ∈ allPixels p.width (2 * p.nRows), xy.1 < p.width ∧ xy.2 < 2 * p.nRows :=
    fun xy hxy => (mem_allPixels _ _ xy).mp hxy
  have hRHS : (pixelFill p c).mem j =
      (allPixels p.width (2 * p.nRows)).foldl
        (fun v xy => byteAct p.width p.nRows (p.matrixbuff p.backindex) xy.1 xy.2 c j v)
        (p.mem j) := by
    unfold pixelFill
    rw [hgw, hgh]
    exact pixelFillList_mem c _ p hrot hall j
  have hLHS : (fillScreen p c).mem j =
      memset8 p.mem (p.matrixbuff p.backindex) (c % 256) (p.width * p.nRows * 3) j := by
    unfold fillScreen
    rw [if_pos hc]
  rw [hLHS, hRHS]
  unfold allPixels
  rw [foldl_flatMap]
  simp only [List.foldl_map]
  unfold memset8
  by_cases hreg : p.matrixbuff p.backindex ≤ j ∧
      j < p.matrixbuff p.backindex + p.width * p.nRows * 3
  · rw [if_pos hreg]
    obtain ⟨rr, k, xx, hrr, hk, hxx, hq⟩ :=
      region_decomp p.width p.nRows (j - p.matrixbuff p.backindex) hw (by omega)
    have hj : j = p.matrixbuff p.backindex + rr * p.width * 3 + xx + p.width * k := by omega
    have hidrow : ∀ y, y < 2 * p.nRows → y ≠ rr → y ≠ rr + p.nRows → ∀ v,
        (List.range p.width).foldl
          (fun v x' => byteAct p.width p.nRows (p.matrixbuff p.backindex) x' y c j v) v = v := by
      intro y hyv hy1 hy2 v
      apply foldl_id_of
      intro x' hx' u
      refine byteAct_untouched p.width p.nRows (p.matrixbuff p.backindex) x' y c j u
        (List.mem_range.mp hx') rr k xx hk hxx hj ?_
      rintro ⟨hY, -⟩
      by_cases hyr : y < p.nRows
      · rw [if_pos hyr] at hY
        omega
      · rw [if_neg hyr] at hY
        omega
    have hrow1 : ∀ v, (List.range p.width).foldl
        (fun v x' => byteAct p.width p.nRows (p.matrixbuff p.backindex) x' rr c j v) v =
        byteAct p.width p.nRows (p.matrixbuff p.backindex) xx rr c j v := by
      intro v
      refine foldl_one_hit _ p.width xx hxx ?_ v
      intro x' hx'w hx'ne u
      exact byteAct_untouched p.width p.nRows (p.matrixbuff p.backindex) x' rr c j u
        hx'w rr k xx hk hxx hj (fun hh => hx'ne hh.2)
    have hrow2 : ∀ v, (List.range p.width).foldl
        (fun v x' => byteAct p.width p.nRows (p.matrixbuff p.backindex) x' (rr + p.nRows) c j v)
          v =
        byteAct p.width p.nRows (p.matrixbuff p.backindex) xx (rr + p.nRows) c j v := by
      intro v
      refine foldl_one_hit _ p.width xx hxx ?_ v
      intro x' hx'w hx'ne u
      exact byteAct_untouched p.width p.nRows (p.matrixbuff p.backindex) x' (rr + p.nRows) c j u
        hx'w rr k xx hk hxx hj (fun hh => hx'ne hh.2)
    rw [foldl_two_hits _ rr (rr + p.nRows) (2 * p.nRows) (by omega) (by omega) hidrow (p.mem j)]
    rw [hrow1, hrow2]
    have hsub : rr + p.nRows - p.nRows = rr := by omega
    interval_cases k
    · have hb1 : ∀ v, byteAct p.width p.nRows (p.matrixbuff p.backindex) xx rr c j v =
          upperByte0 (c >>> 12) ((c >>> 7) &&& 0xF) ((c >>> 1) &&& 0xF) v := by
        intro v
        unfold byteAct
        rw [if_pos hrr, if_pos (by omega)]
      have hb2 : ∀ v, byteAct p.width p.nRows (p.matrixbuff p.backindex) xx (rr + p.nRows) c j v =
          lowerByte0 (c >>> 12) ((c >>> 7) &&& 0xF) ((c >>> 1) &&& 0xF) v := by
        intro v
        unfold byteAct
        rw [if_neg (by omega : ¬(rr + p.nRows < p.nRows)), hsub, if_pos (by omega)]
      rw [hb1, hb2]
      rcases hc with rfl | rfl
      · simpa using ((fill_compose (p.mem j) (hwf j)).1).symm
      · simpa using ((fill_compose (p.mem j) (hwf j)).2.2.2.1).symm
    · have hb1 : ∀ v, byteAct p.width p.nRows (p.matrixbuff p.backindex) xx rr c j v =
          upperByte1 (c >>> 12) ((c >>> 7) &&& 0xF) ((c >>> 1) &&& 0xF) v := by
        intro v
        unfold byteAct
        rw [if_pos hrr, if_neg (by omega), if_pos (by omega)]
      have hb2 : ∀ v, byteAct p.width p.nRows (p.matrixbuff p.backindex) xx (rr + p.nRows) c j v =
          lowerByte1 (c >>> 12) ((c >>> 7) &&& 0xF) ((c >>> 1) &&& 0xF) v := by
        intro v
        unfold byteAct
        rw [if_neg (by omega : ¬(rr + p.nRows < p.nRows)), hsub, if_neg (by omega),
          if_pos (by omega)]
      rw [hb1, hb2]
      rcases hc with rfl | rfl
      · simpa using ((fill_compose (p.mem j) (hwf j)).2.1).symm
      · simpa using ((fill_compose (p.mem j) (hwf j)).2.2.2.2.1).symm
    · have hb1 : ∀ v, byteAct p.width p.nRows (p.matrixbuff p.backindex) xx rr c j v =
          upperByte2 (c >>> 12) ((c >>> 7) &&& 0xF) ((c >>> 1) &&& 0xF) v := by
        intro v
        unfold byteAct
        rw [if_pos hrr, if_neg (by omega), if_neg (by omega), if_pos (by omega)]
      have hb2 : ∀ v, byteAct p.width p.nRows (p.matrixbuff p.backindex) xx (rr + p.nRows) c j v =
          lowerByte2 (c >>> 12) ((c >>> 7) &&& 0xF) ((c >>> 1) &&& 0xF) v := by
        intro v
        unfold byteAct
        rw [if_neg (by omega : ¬(rr + p.nRows < p.nRows)), hsub, if_neg (by omega),
          if_neg (by omega), if_pos (by omega)]
      rw [hb1, hb2]
      rcases hc with rfl | rfl
      · simpa using ((fill_compose (p.mem j) (hwf j)).2.2.1).symm
      · simpa using ((fill_compose (p.mem j) (hwf j)).2.2.2.2.2).symm
  · rw [if_neg hreg]
    push_neg at hreg
    have hidall : ∀ y ∈ List.range (2 * p.nRows), ∀ v,
        (List.range p.width).foldl
          (fun v x' => byteAct p.width p.nRows (p.matrixbuff p.backindex) x' y c j v) v = v := by
      intro y hy v
      apply foldl_id_of
      intro x' hx' u
      have hyv := List.mem_range.mp hy
      have hxv := List.mem_range.mp hx'
      have hY : (if y < p.nRows then y else y - p.nRows) < p.nRows := by
        split_ifs <;> omega
      apply byteAct_ne
      · intro heq
        have hlt := pix_addr_lt (p.matrixbuff p.backindex) p.width p.nRows
          (if y < p.nRows then y else y - p.nRows) x' 0 hY hxv (by omega)
        omega
      · intro heq
        have hlt := pix_addr_lt (p.matrixbuff p.backindex) p.width p.nRows
          (if y < p.nRows then y else y - p.nRows) x' 1 hY hxv (by omega)
        omega
      · intro heq
        have hlt := pix_addr_lt (p.matrixbuff p.backindex) p.width p.nRows
          (if y < p.nRows then y else y - p.nRows) x' 2 hY hxv (by omega)
        omega
    exact (foldl_id_of _ _ hidall (p.mem j)).symm

/-- Witness for C3 on the concrete panel at byte 0 with black. -/
theorem fillScreen_equiv_pixel_fill_witness :
    ((0 : Nat) = 0x0000 ∨ (0 : Nat) = 0xFFFF) ∧
      (fillScreen panel32 0).mem 0 = (pixelFill panel32 0).mem 0 :=
  ⟨Or.inl rfl, fillScreen_equiv_pixel_fill panel32 0 (Or.inl rfl) rfl
    (fun i => by simp [panel32]) (by decide) 0⟩

/-- Claim C2: for every 16-bit color and every coordinate inside the
rotation-adjusted visible area, writing the pixel with `drawPixel` and
reading back the four packed plane bits of each channel at the written
(rotation-transformed) pixel, recombined with weights 1/2/4/8, yields
exactly `(c>>12, (c>>7)&0xF, (c>>1)&0xF)`. -/
theorem drawPixel_roundTrip (p : Panel) (x y : Int) (c : Nat)
    (hin : ¬(x < 0 ∨ x ≥ (gfxWidth p : Int) ∨ y < 0 ∨ y ≥ (gfxHeight p : Int)))
    (hc : c < 65536) (hwf : ∀ i, p.mem i < 256) :
    decodePixel (drawPixel p x y c) (rotateXY p x y).1.toNat (rotateXY p x y).2.toNat =
      (c >>> 12, (c >>> 7) &&& 0xF, (c >>> 1) &&& 0xF) := by
  push_neg at hin
  obtain ⟨hx0, hxw, hy0, hyh⟩ := hin
  have key : ∀ tx ty : Nat, rotateXY p x y = ((tx : Int), (ty : Int)) →
      tx < p.width → ty < 2 * p.nRows →
      decodePixel (drawPixel p x y c) tx ty =
        (c >>> 12, (c >>> 7) &&& 0xF, (c >>> 1) &&& 0xF) := by
    intro tx ty hrotv htx hty
    have hguard : ¬(x < 0 ∨ x ≥ (gfxWidth p : Int) ∨ y < 0 ∨ y ≥ (gfxHeight p : Int)) := by
      push_neg
      exact ⟨hx0, hxw, hy0, hyh⟩
    have hguard0 : ¬((tx : Int) < 0 ∨ (tx : Int) ≥ (gfxWidth { p with rotation := 0 } : Int) ∨
        (ty : Int) < 0 ∨ (ty : Int) ≥ (gfxHeight { p with rotation := 0 } : Int)) := by
      have hg1 : gfxWidth { p with rotation := 0 } = p.width := by
        simp [gfxWidth]
      have hg2 : gfxHeight { p with rotation := 0 } = 2 * p.nRows := by
        simp [gfxHeight]
      rw [hg1, hg2]
      push_neg
      refine ⟨by omega, by omega, by omega, by omega⟩
    have hmemeq : drawPixelMem p x y c =
        drawPixelMem { p with rotation := 0 } (tx : Int) (ty : Int) c := by
      unfold drawPixelMem
      rw [if_neg hguard, if_neg hguard0, hrotv,
        show rotateXY { p with rotation := 0 } (tx : Int) (ty : Int) =
          ((tx : Int), (ty : Int)) from rfl]
    have hdec : decodePixel (drawPixel p x y c) tx ty =
        decodePixel (drawPixel { p with rotation := 0 } (tx : Int) (ty : Int) c) tx ty := by
      show decodePixel { p with mem := drawPixelMem p x y c } tx ty = _
      rw [hmemeq]
      rfl
    rw [hdec]
    exact drawPixel_roundTrip_raw { p with rotation := 0 } tx ty c rfl htx hty hc hwf
  have hrotv := rfl (a := rotateXY p x y)
  rcases hrv : p.rotation with - | - | - | - | m
  · have hg1 : gfxWidth p = p.width := by simp [gfxWidth, hrv]
    have hg2 : gfxHeight p = 2 * p.nRows := by simp [gfxHeight, hrv]
    rw [hg1] at hxw
    rw [hg2] at hyh
    have hr : rotateXY p x y = ((x.toNat : Int), (y.toNat : Int)) := by
      unfold rotateXY
      rw [hrv]
      rw [Int.toNat_of_nonneg hx0, Int.toNat_of_nonneg hy0]
    rw [hr]
    simp only [Int.toNat_ofNat]
    exact key x.toNat y.toNat hr (by omega) (by omega)
  · have hg1 : gfxWidth p = 2 * p.nRows := by simp [gfxWidth, hrv]
    have hg2 : gfxHeight p = p.width := by simp [gfxHeight, hrv]
    rw [hg1] at hxw
    rw [hg2] at hyh
    have hr : rotateXY p x y = (((p.width - 1 - y.toNat : Nat) : Int), ((x.toNat : Nat) : Int)) := by
      unfold rotateXY
      rw [hrv]
      rw [Prod.mk.injEq]
      constructor <;> omega
    rw [hr]
    simp only [Int.toNat_ofNat]
    exact key _ _ hr (by omega) (by omega)
  · have hg1 : gfxWidth p = p.width := by simp [gfxWidth, hrv]
    have hg2 : gfxHeight p = 2 * p.nRows := by simp [gfxHeight, hrv]
    rw [hg1] at hxw
    rw [hg2] at hyh
    have hr : rotateXY p x y =
        (((p.width - 1 - x.toNat : Nat) : Int), ((2 * p.nRows - 1 - y.toNat : Nat) : Int)) := by
      unfold rotateXY
      rw [hrv]
      rw [Prod.mk.injEq]
      constructor <;> omega
    rw [hr]
    simp only [Int.toNat_ofNat]
    exact key _ _ hr (by omega) (by omega)
  · have hg1 : gfxWidth p = 2 * p.nRows := by simp [gfxWidth, hrv]
    have hg2 : gfxHeight p = p.width := by simp [gfxHeight, hrv]
    rw [hg1] at hxw
    rw [hg2] at hyh
    have hr : rotateXY p x y =
        (((y.toNat : Nat) : Int), ((2 * p.nRows - 1 - x.toNat : Nat) : Int)) := by
      unfold rotateXY
      rw [hrv]
      rw [Prod.mk.injEq]
      constructor <;> omega
    rw [hr]
    simp only [Int.toNat_ofNat]
    exact key _ _ hr (by omega) (by omega)
  · have hne : ¬(p.rotation = 1 ∨ p.rotation = 3) := by omega
    have hg1 : gfxWidth p = p.width := by
      unfold gfxWidth
      rw [if_neg hne]
    have hg2 : gfxHeight p = 2 * p.nRows := by
      unfold gfxHeight
      rw [if_neg hne]
    rw [hg1] at hxw
    rw [hg2] at hyh
    have hr : rotateXY p x y = ((x.toNat : Int), (y.toNat : Int)) := by
      unfold rotateXY
      rw [hrv]
      rw [Int.toNat_of_nonneg hx0, Int.toNat_of_nonneg hy0]
      rfl
    rw [hr]
    simp only [Int.toNat_ofNat]
    exact key x.toNat y.toNat hr (by omega) (by omega)

/-- Witness for C2: with the panel rotated 90°, writing pure red `0xF800`
at `(0,0)` lands at physical pixel `(31,0)` and decodes to `(15, 0, 0)` —
all four R-plane bits set, G/B clear. -/
theorem drawPixel_roundTrip_witness :
    (¬((0 : Int) < 0 ∨ (0 : Int) ≥ (gfxWidth { panel32 with rotation := 1 } : Int) ∨
        (0 : Int) < 0 ∨ (0 : Int) ≥ (gfxHeight { panel32 with rotation := 1 } : Int))) ∧
      decodePixel (drawPixel { panel32 with rotation := 1 } 0 0 0xF800) 31 0 = (15, 0, 0) :=
  ⟨by decide, by
    simpa using drawPixel_roundTrip { panel32 with rotation := 1 } 0 0 0xF800
      (by decide) (by decide) (fun i => by simp [panel32])⟩

end RGBmatrixPanel
